import Mathlib

/-!
Verification development for the "Alias on Create" plugin core logic:
link matching (`findMatchingLinks`), bare-link rewriting (`patchBareLinks`),
frontmatter alias merging (`addAliasFrontmatter`), and the creation pipeline.
All text is modelled as `List Char`; the JavaScript regular expressions are
embedded as deterministic character-level scanners with the exact
backtracking-resolved semantics of the original patterns.
-/

namespace Aoc

/-- Convert a string literal to the `List Char` representation used throughout. -/
def s2l (s : String) : List Char := s.data

/-- If `pre` is a prefix of `l`, return the remainder, else `none`.
Models literal matching of an escaped string inside a regex. -/
def stripPre : List Char → List Char → Option (List Char)
  | [], l => some l
  | _ :: _, [] => none
  | p :: ps, c :: cs => if p = c then stripPre ps cs else none

/-- Substring test: models JavaScript `String.prototype.includes`. -/
def containsSub (n : List Char) : List Char → Bool
  | [] => n.isEmpty
  | c :: cs => n.isPrefixOf (c :: cs) || containsSub n cs

/-- Insertion-ordered deduplication, models adding to a JS `Set`. -/
def insertDedup (acc : List (List Char)) (x : List Char) : List (List Char) :=
  if x ∈ acc then acc else acc ++ [x]

/-- A document in the corpus: path and markdown content. -/
structure FileD where
  path : List Char
  content : List Char
deriving DecidableEq

/-! ### The Link Matcher (`findMatchingLinks`)

The JS code builds the regex `\[\[` + escaped(linkText) +
`(#[^\]|]*)?(\|([^\]]+))?\]\]` with flag `g` and scans each file,
collecting `match[3]` (the pipe label) when present and `linkText` otherwise.
Because the target is matched literally and each optional group starts with a
distinct marker character that is excluded from the preceding character
classes, the regex is backtracking-free; `tryMatchRef` is its exact
character-level semantics at one position. -/

/-- Character allowed inside the `#fragment` of the matcher regex: `[^\]|]`. -/
def notStopB (c : Char) : Bool := c != ']' && c != '|'

/-- Character allowed inside a pipe label: `[^\]]`. -/
def neRB (c : Char) : Bool := c != ']'

/-- Skip the optional `(#[^\]|]*)?` fragment group of the matcher regex. -/
def fragSkip (l2 : List Char) : List Char :=
  match l2 with
  | '#' :: r => r.dropWhile notStopB
  | _ => l2

/-- After the target name and optional fragment: match `(\|([^\]]+))?\]\]`.
An empty pipe label makes the whole reference fail (the `+` in the label
group, and `\]\]` cannot match at the `|` once the group is dropped). -/
def refTail (l3 : List Char) : Option (Option (List Char) × List Char) :=
  match l3 with
  | '|' :: r =>
    match r.dropWhile neRB with
    | ']' :: ']' :: rest =>
      if (r.takeWhile neRB).isEmpty then none
      else some (some (r.takeWhile neRB), rest)
    | _ => none
  | ']' :: ']' :: rest => some (none, rest)
  | _ => none

/-- Attempt to match `\[\[T(#[^\]|]*)?(\|([^\]]+))?\]\]` at the head of `l`.
Returns `(labelOpt, rest)`: `some lab` when a pipe label was captured,
`none` for a bare/fragment-only reference, and the text after the match. -/
def tryMatchRef (T : List Char) (l : List Char) : Option (Option (List Char) × List Char) :=
  match l with
  | '[' :: '[' :: l1 =>
    match stripPre T l1 with
    | none => none
    | some l2 => refTail (fragSkip l2)
  | _ => none

theorem stripPre_length : ∀ T l l2, stripPre T l = some l2 → l2.length ≤ l.length := by
  intro T
  induction T with
  | nil => intro l l2 h; simp [stripPre] at h; simp [h]
  | cons p ps ih =>
    intro l l2 h
    cases l with
    | nil => simp [stripPre] at h
    | cons c cs =>
      simp only [stripPre] at h
      split at h
      · exact Nat.le_succ_of_le (ih cs l2 h)
      · exact absurd h (by simp)

theorem length_dropWhile_le' (p : Char → Bool) (l : List Char) :
    (l.dropWhile p).length ≤ l.length := by
  induction l with
  | nil => simp
  | cons c cs ih =>
    by_cases h : p c
    · simpa [List.dropWhile, h] using Nat.le_succ_of_le ih
    · simp [List.dropWhile, h]

theorem fragSkip_length (l2 : List Char) : (fragSkip l2).length ≤ l2.length := by
  unfold fragSkip
  split
  · exact Nat.le_succ_of_le (length_dropWhile_le' notStopB _)
  · exact Nat.le_refl _

theorem refTail_length {l3 : List Char} {lab rest} (h : refTail l3 = some (lab, rest)) :
    rest.length < l3.length := by
  unfold refTail at h
  split at h
  · rename_i r
    split at h
    · rename_i rest' heq
      split at h
      · exact absurd h (by simp)
      · have hdl : (r.dropWhile neRB).length ≤ r.length := length_dropWhile_le' neRB r
        rw [heq] at hdl
        simp only [Option.some.injEq, Prod.mk.injEq] at h
        obtain ⟨-, h2⟩ := h
        subst h2
        simp only [List.length_cons] at hdl ⊢
        omega
    · exact absurd h (by simp)
  · rename_i rest'
    simp only [Option.some.injEq, Prod.mk.injEq] at h
    obtain ⟨-, h2⟩ := h
    subst h2
    simp only [List.length_cons]
    omega
  · exact absurd h (by simp)

theorem tryMatchRef_length {T l lab rest} (h : tryMatchRef T l = some (lab, rest)) :
    rest.length < l.length := by
  unfold tryMatchRef at h
  split at h
  case h_2 => exact absurd h (by simp)
  case h_1 _ l1 =>
    cases hs : stripPre T l1 with
    | none => rw [hs] at h; exact absurd h (by simp)
    | some l2 =>
      rw [hs] at h
      have h1 := refTail_length h
      have h2 := fragSkip_length l2
      have h3 := stripPre_length T l1 l2 hs
      simp only [List.length_cons]
      omega

/-- Fuel-indexed scanner (the fuel only serves structural recursion; it is
irrelevant once at least the content length). -/
def scanRefsF (T : List Char) : Nat → List Char → List (List Char)
  | _, [] => []
  | 0, _ :: _ => []
  | fuel + 1, c :: cs =>
    match tryMatchRef T (c :: cs) with
    | some (some lab, rest) => lab :: scanRefsF T fuel rest
    | some (none, rest) => T :: scanRefsF T fuel rest
    | none => scanRefsF T fuel cs

/-- One full `g`-flag scan of a content string, returning the discovered
display label of every match in order (bare references contribute `T`). -/
def scanRefs (T l : List Char) : List (List Char) := scanRefsF T l.length l

theorem scanRefsF_fuel (T : List Char) :
    ∀ (f1 f2 : Nat) (l : List Char), l.length ≤ f1 → l.length ≤ f2 →
      scanRefsF T f1 l = scanRefsF T f2 l := by
  intro f1
  induction f1 with
  | zero =>
    intro f2 l h1 _
    cases l with
    | nil => cases f2 <;> rfl
    | cons c cs => simp at h1
  | succ f1' ih =>
    intro f2 l h1 h2
    cases l with
    | nil => cases f2 <;> rfl
    | cons c cs =>
      cases f2 with
      | zero => simp at h2
      | succ f2' =>
        simp only [scanRefsF]
        simp only [List.length_cons] at h1 h2
        cases h : tryMatchRef T (c :: cs) with
        | none => exact ih f2' cs (by omega) (by omega)
        | some v =>
          obtain ⟨lab, rest⟩ := v
          have hr := tryMatchRef_length h
          simp only [List.length_cons] at hr
          cases lab with
          | none =>
            show T :: scanRefsF T f1' rest = T :: scanRefsF T f2' rest
            rw [ih f2' rest (by omega) (by omega)]
          | some lab0 =>
            show lab0 :: scanRefsF T f1' rest = lab0 :: scanRefsF T f2' rest
            rw [ih f2' rest (by omega) (by omega)]

/-- The Link Matcher: scan every markdown file other than the new one,
with the literal `[[` + T substring pre-check, collecting the deduplicated
label set and the found flag.  Faithful to `findMatchingLinks`. -/
def findMatchingLinks (T newPath : List Char) (files : List FileD) :
    Bool × List (List Char) :=
  files.foldl
    (fun acc f =>
      if f.path = newPath then acc
      else if ¬ containsSub ('[' :: '[' :: T) f.content then acc
      else
        let ms := scanRefs T f.content
        (acc.1 || !ms.isEmpty, ms.foldl insertDedup acc.2))
    (false, [])

/-! ### Spec-side reference grammar

Modelled from the spec: section 3 defines a Reference as a bracketed
occurrence `[[target]]` optionally followed by a fragment (`#heading` or
`#^blockref`) and optionally by a pipe-separated display label (`|label`).
This is the specification's notion of "a bracketed reference whose segment
before `#` and `|` equals T exactly"; it is deliberately more permissive
than the implementation's regex (the label may be empty here). -/

/-- Skip the spec grammar's optional `|label` part (the label is any text
without `]`, possibly empty — the spec does not require it non-empty). -/
def pipeSkip (l : List Char) : List Char :=
  match l with
  | '|' :: r0 => r0.dropWhile neRB
  | _ => l

/-- Does a spec-grammar reference to `T` start at the head of `l`?
`[[` + T, an optional `#fragment`, an optional `|label`, then `]]`. -/
def specRefAt (T : List Char) (l : List Char) : Bool :=
  match stripPre ('[' :: '[' :: T) l with
  | none => false
  | some r =>
    match pipeSkip (fragSkip r) with
    | ']' :: ']' :: _ => true
    | _ => false

/-- Does the content contain a spec-grammar reference to `T` at any position? -/
def specContainsRef (T : List Char) : List Char → Bool
  | [] => false
  | c :: cs => specRefAt T (c :: cs) || specContainsRef T cs

/-! ### The Link Rewriter (`patchBareLinks` / `patchSourceLinks`)

The JS code rewrites content via
`content.replace(/\[\[([^\]|]*?)(\|[^\]]*)?\]\]/g, cb)` where the callback
leaves any match with a pipe segment unchanged, and rewrites a bare match
whose target's pre-`#` part equals the link text to `[[target|linkText]]`.
Since the lazy target group ranges over `[^\]|]` and each continuation is
keyed by a distinct excluded character, the regex is again deterministic;
`tryMatchPatch` is its semantics at one position. -/

/-- Attempt to match `\[\[([^\]|]*?)(\|[^\]]*)?\]\]` at the head of `l`.
Returns `(target, pipeOpt, rest)` where `pipeOpt = some lab` means the match
carried a pipe segment `|lab` (possibly with empty `lab`). -/
def tryMatchPatch (l : List Char) : Option (List Char × Option (List Char) × List Char) :=
  match l with
  | '[' :: '[' :: r =>
    match r.dropWhile notStopB with
    | ']' :: ']' :: rest => some (r.takeWhile notStopB, none, rest)
    | '|' :: r1 =>
      match r1.dropWhile neRB with
      | ']' :: ']' :: rest => some (r.takeWhile notStopB, some (r1.takeWhile neRB), rest)
      | _ => none
    | _ => none
  | _ => none

/-- The replacement the JS callback produces for one regex match of the
rewriter: matches with a pipe segment are returned verbatim; a bare match is
rewritten exactly when its pre-`#` segment equals the target name. -/
def patchRepl (T tgt : List Char) (pipe : Option (List Char)) : List Char :=
  match pipe with
  | some lab => '[' :: '[' :: (tgt ++ '|' :: (lab ++ [']', ']']))
  | none =>
    if tgt.takeWhile (fun c => c != '#') = T then
      '[' :: '[' :: (tgt ++ '|' :: (T ++ [']', ']']))
    else '[' :: '[' :: (tgt ++ [']', ']'])

theorem tryMatchPatch_length {l tgt pipe rest}
    (h : tryMatchPatch l = some (tgt, pipe, rest)) : rest.length < l.length := by
  unfold tryMatchPatch at h
  split at h
  case h_2 => exact absurd h (by simp)
  case h_1 _ r =>
    have hr : (r.dropWhile notStopB).length ≤ r.length := length_dropWhile_le' notStopB r
    split at h
    case h_1 _ rest' heq =>
      rw [heq] at hr
      simp only [Option.some.injEq, Prod.mk.injEq] at h
      obtain ⟨-, -, h3⟩ := h
      subst h3
      simp only [List.length_cons] at hr ⊢
      omega
    case h_2 _ r1 heq =>
      rw [heq] at hr
      have hr1 : (r1.dropWhile neRB).length ≤ r1.length := length_dropWhile_le' neRB r1
      split at h
      case h_1 _ rest' heq1 =>
        rw [heq1] at hr1
        simp only [Option.some.injEq, Prod.mk.injEq] at h
        obtain ⟨-, -, h3⟩ := h
        subst h3
        simp only [List.length_cons] at hr hr1 ⊢
        omega
      case h_2 => exact absurd h (by simp)
    case h_3 => exact absurd h (by simp)

/-- Fuel-indexed rewriting pass (fuel only serves structural recursion). -/
def patchScanF (T : List Char) : Nat → List Char → List Char
  | _, [] => []
  | 0, l => l
  | fuel + 1, c :: cs =>
    match tryMatchPatch (c :: cs) with
    | some (tgt, pipe, rest) => patchRepl T tgt pipe ++ patchScanF T fuel rest
    | none => c :: patchScanF T fuel cs

/-- The full `String.replace` pass of the rewriter over one content string:
leftmost non-overlapping matches, each mapped through the callback. -/
def patchScan (T l : List Char) : List Char := patchScanF T l.length l

theorem patchScanF_fuel (T : List Char) :
    ∀ (f1 f2 : Nat) (l : List Char), l.length ≤ f1 → l.length ≤ f2 →
      patchScanF T f1 l = patchScanF T f2 l := by
  intro f1
  induction f1 with
  | zero =>
    intro f2 l h1 _
    cases l with
    | nil => cases f2 <;> rfl
    | cons c cs => simp at h1
  | succ f1' ih =>
    intro f2 l h1 h2
    cases l with
    | nil => cases f2 <;> rfl
    | cons c cs =>
      cases f2 with
      | zero => simp at h2
      | succ f2' =>
        simp only [patchScanF]
        simp only [List.length_cons] at h1 h2
        cases h : tryMatchPatch (c :: cs) with
        | none =>
          show c :: patchScanF T f1' cs = c :: patchScanF T f2' cs
          rw [ih f2' cs (by omega) (by omega)]
        | some v =>
          obtain ⟨tgt, pipe, rest⟩ := v
          have hr := tryMatchPatch_length h
          simp only [List.length_cons] at hr
          show patchRepl T tgt pipe ++ patchScanF T f1' rest =
            patchRepl T tgt pipe ++ patchScanF T f2' rest
          rw [ih f2' rest (by omega) (by omega)]

/-- Per-corpus rewriting: every markdown file other than the new one, with
the substring pre-check; only content is transformed. -/
def patchAllFiles (T newPath : List Char) (files : List FileD) : List FileD :=
  files.map fun f =>
    if f.path = newPath then f
    else if ¬ containsSub ('[' :: '[' :: T) f.content then f
    else { f with content := patchScan T f.content }

/-! ### The Alias Merger (`addAliasFrontmatter`)

Textual frontmatter splicing from `main.js`/`main.ts`.  The frontmatter is
located with the regex `^---\r?\n([\s\S]*?)\r?\n--` + `-` (lazy body, earliest
terminator, `\r\n` preferred over `\n` at the same position); the `aliases`
field is found with the multiline tests `/^aliases\s*:/m` and
`/^(aliases\s*:\s*)\[([^\]]*)\]/m` (in JS, `\s` is the full Unicode
WhiteSpace-plus-LineTerminator class and `^` under `/m` matches after `\n`,
`\r`, U+2028 and U+2029); block items are parsed per line with
`/^\s*-\s+(.*)/` (`.` excludes the four line terminators); and splices go
through `String.replace` with a string pattern, which replaces the FIRST
occurrence of the body string in the whole content after expanding `$`
sequences in the replacement (GetSubstitution). -/

/-- JS `\s` whitespace class: the WhiteSpace set (tab, VT, FF, space, NBSP,
ZWNBSP and every Unicode space separator) together with the line
terminators LF, CR, U+2028 and U+2029.  `String.prototype.trim` strips the
same set. -/
def isWsB (c : Char) : Bool :=
  c = ' ' || c = '\t' || c = '\n' || c = '\r' || c = '\x0b' || c = '\x0c' ||
  c = '\u00A0' || c = '\u1680' || ('\u2000' ≤ c && c ≤ '\u200A') ||
  c = '\u2028' || c = '\u2029' || c = '\u202F' || c = '\u205F' ||
  c = '\u3000' || c = '\uFEFF'

/-- ECMAScript line terminators: LF, CR, U+2028 and U+2029.  Under `/m` the
anchor `^` matches after any of these, and `.` refuses to match them. -/
def isLineTerm (c : Char) : Bool :=
  c = '\n' || c = '\r' || c = '\u2028' || c = '\u2029'

/-- Scan for the earliest frontmatter terminator `\r?\n---`, returning the
body accumulated so far and the text after `---`. -/
def fmTermSplit : List Char → Option (List Char × List Char)
  | '\r' :: '\n' :: '-' :: '-' :: '-' :: rest => some ([], rest)
  | '\n' :: '-' :: '-' :: '-' :: rest => some ([], rest)
  | c :: cs => (fmTermSplit cs).map fun p => (c :: p.1, p.2)
  | [] => none

/-- The anchored frontmatter match, regex `^---\r?\n([\s\S]*?)\r?\n--` + `-`,
returning the captured body (group 1). -/
def fmSplit (content : List Char) : Option (List Char) :=
  match content with
  | '-' :: '-' :: '-' :: '\r' :: '\n' :: r => (fmTermSplit r).map Prod.fst
  | '-' :: '-' :: '-' :: '\n' :: r => (fmTermSplit r).map Prod.fst
  | _ => none

/-- ECMAScript GetSubstitution for a string `replace`: in the replacement,
`$$` yields a dollar, `$&` the matched text, a `$` followed by a backquote
the portion before the match, `$` followed by a quote the portion after it;
every other `$` sequence is literal (a string search has no capture groups,
so `$1`-style and `$<`-style references stay as written). -/
def subDollar (matched before after : List Char) : List Char → List Char
  | [] => []
  | '$' :: d :: rest =>
    if d = '$' then '$' :: subDollar matched before after rest
    else if d = '&' then matched ++ subDollar matched before after rest
    else if d = '\x60' then before ++ subDollar matched before after rest
    else if d = '\'' then after ++ subDollar matched before after rest
    else '$' :: d :: subDollar matched before after rest
  | c :: rest => c :: subDollar matched before after rest

/-- The scan of `String.replace` with a string pattern: walk to the first
occurrence of `needle` (an empty needle matches at position 0), carrying the
portion already passed, and substitute the replacement there via
`GetSubstitution`. -/
def replaceFirstGo (needle repl : List Char) : List Char → List Char → List Char
  | before, [] =>
    if needle.isPrefixOf ([] : List Char) then subDollar needle before [] repl else []
  | before, c :: cs =>
    if needle.isPrefixOf (c :: cs) then
      subDollar needle before ((c :: cs).drop needle.length) repl ++
        (c :: cs).drop needle.length
    else c :: replaceFirstGo needle repl (before ++ [c]) cs

/-- JS `String.replace` with a string pattern: replace the first occurrence
of `needle` by the `GetSubstitution`-expanded replacement, or return `hay`
unchanged when absent. -/
def replaceFirst (needle repl hay : List Char) : List Char :=
  replaceFirstGo needle repl [] hay

/-- Does `l` begin with `aliases` + `\s*` + `:`?  If so return the rest
after the colon. -/
def aliasKeyAt (l : List Char) : Option (List Char) :=
  match stripPre (s2l "aliases") l with
  | none => none
  | some r =>
    match r.dropWhile isWsB with
    | ':' :: rest => some rest
    | _ => none

/-- The multiline test `/^aliases\s*:/m`: try `aliasKeyAt` at the start and
after every line terminator. -/
def hasAliasesLineGo (atStart : Bool) : List Char → Bool
  | [] => false
  | c :: cs =>
    (atStart && (aliasKeyAt (c :: cs)).isSome)
      || hasAliasesLineGo (isLineTerm c) cs

def hasAliasesLine (l : List Char) : Bool := hasAliasesLineGo true l

/-- Parse `aliases\s*:\s*\[([^\]]*)\]` at the head of `l`; on success return
the inner list text and the remainder after the closing `]`. -/
def inlineParse (l : List Char) : Option (List Char × List Char) :=
  match aliasKeyAt l with
  | none => none
  | some r =>
    match r.dropWhile isWsB with
    | '[' :: r1 =>
      match r1.dropWhile neRB with
      | ']' :: rest => some (r1.takeWhile neRB, rest)
      | _ => none
    | _ => none

/-- Leftmost multiline match of the inline-aliases regex: returns
`(pre, inner, post)` with the body equal to `pre ++ span ++ post` where
`span` is the full matched text `aliases\s*:\s*[inner]`. -/
def findInlineGo (atStart : Bool) : List Char → Option (List Char × List Char × List Char)
  | [] => none
  | c :: cs =>
    match (if atStart then inlineParse (c :: cs) else none) with
    | some (inner, post) => some ([], inner, post)
    | none =>
      (findInlineGo (isLineTerm c) cs).map fun p => (c :: p.1, p.2.1, p.2.2)

def findInline (l : List Char) : Option (List Char × List Char × List Char) :=
  findInlineGo true l

/-- Strip one leading quote character (`'` or `"`), as the first half of
`replace(/^['"]|['"]$/g, "")`. -/
def dropLeadQ : List Char → List Char
  | [] => []
  | c :: cs => if c = '\'' || c = '"' then cs else c :: cs

/-- `s.replace(/^['"]|['"]$/g, "")`: strip one leading and one trailing
quote character. -/
def stripQ (l : List Char) : List Char := (dropLeadQ (dropLeadQ l).reverse).reverse

/-- JS `String.prototype.trim` (strips WhiteSpace and line terminators on
both sides). -/
def trimWs (l : List Char) : List Char :=
  ((l.dropWhile isWsB).reverse.dropWhile isWsB).reverse

/-- JS `String.prototype.split` with a one-character separator. -/
def splitOn (sep : Char) : List Char → List (List Char)
  | [] => [[]]
  | c :: cs =>
    if c = sep then [] :: splitOn sep cs
    else match splitOn sep cs with
      | l :: ls => (c :: l) :: ls
      | [] => [[c]]

/-- The block-item regex `/^\s*-\s+(.*)/` applied to one line: whitespace,
a dash, at least one whitespace, then the captured rest (`.` stops at any
line terminator). -/
def itemOf (line : List Char) : Option (List Char) :=
  match line.dropWhile isWsB with
  | '-' :: l2 =>
    match l2 with
    | c :: _ =>
      if isWsB c then some ((l2.dropWhile isWsB).takeWhile fun ch => !(isLineTerm ch))
      else none
    | [] => none
  | _ => none

/-- Collect consecutive block-list items, stopping at the first non-item
line (the `for`/`break` loop of the source). -/
def collectItems : List (List Char) → List (List Char)
  | [] => []
  | ln :: rest =>
    match itemOf ln with
    | some it => it :: collectItems rest
    | none => []

/-- Index of the first line after the `aliases:` header (`aliasIdx + 1`);
when `findIndex` returns `-1` the item loop of the source starts at `0`. -/
def blockStart (lines : List (List Char)) : Nat :=
  match lines.findIdx? (fun ln => (aliasKeyAt ln).isSome) with
  | some i => i + 1
  | none => 0

/-- The items following the header, as parsed by the source's loop. -/
def blockItems (lines : List (List Char)) : List (List Char) :=
  (collectItems (lines.drop (blockStart lines))).map stripQ

/-- The block-style merge: find the `aliases:` line, parse following items,
and insert `  - label` after the last item when the label is absent.
Returns `none` when no change is made. -/
def blockMerge (fmBody label : List Char) : Option (List Char) :=
  if label ∈ blockItems (splitOn '\n' fmBody) then none
  else some (List.intercalate (s2l "\n")
    ((splitOn '\n' fmBody).take
        (blockStart (splitOn '\n' fmBody) + (blockItems (splitOn '\n' fmBody)).length) ++
      [s2l "  - " ++ label] ++
      (splitOn '\n' fmBody).drop
        (blockStart (splitOn '\n' fmBody) + (blockItems (splitOn '\n' fmBody)).length)))

/-- The Alias Merger `addAliasFrontmatter` from `main.js` / `main.ts`:
create a frontmatter block, or splice the label into an existing inline or
block `aliases` list, deduplicating after trim/quote-stripping. -/
def addAliasFrontmatter (content label : List Char) : List Char :=
  match fmSplit content with
  | none => s2l "---\naliases:\n  - " ++ label ++ s2l "\n---\n" ++ content
  | some fmBody =>
    if hasAliasesLine fmBody then
      match findInline fmBody with
      | some (pre, inner, post) =>
        let existing := ((splitOn ',' inner).map fun s => stripQ (trimWs s)).filter
          fun s => ¬ s.isEmpty
        if label ∈ existing then content
        else
          let newAliases := s2l "aliases: [" ++
            List.intercalate (s2l ", ") (existing ++ [label]) ++ [']']
          replaceFirst fmBody (pre ++ newAliases ++ post) content
      | none =>
        match blockMerge fmBody label with
        | none => content
        | some newFmBody => replaceFirst fmBody newFmBody content
    else
      replaceFirst fmBody (fmBody ++ s2l "\naliases:\n  - " ++ label) content

/-! ### The creation pipeline (`onload` handler)

After the stabilization wait (timing, out of the shallow embedding), the
handler runs: match, halt when nothing found, rewrite, then merge each
discovered label into the new file. -/

/-- Merge each discovered label into the new file's content, in order. -/
def applyAliases (newPath : List Char) (labels : List (List Char))
    (files : List FileD) : List FileD :=
  labels.foldl
    (fun fs L => fs.map fun f =>
      if f.path = newPath then { f with content := addAliasFrontmatter f.content L }
      else f)
    files

/-- The per-creation pipeline body: find links, stop if none, patch bare
references, then merge aliases. -/
def runPipeline (T newPath : List Char) (files : List FileD) : List FileD :=
  let info := findMatchingLinks T newPath files
  if info.1 then applyAliases newPath info.2 (patchAllFiles T newPath files)
  else files

/-- The Creation Tracker state: the Known-Set and the corpus. -/
structure TrackerState where
  known : List (List Char)
  files : List FileD
deriving DecidableEq

/-- The `vault.on("create")` handler: before `ready` or for non-markdown
files nothing happens; a path already in the Known-Set is ignored;
otherwise the path is marked known and the pipeline runs with the new
file's basename. -/
def handleCreate (ready : Bool) (st : TrackerState)
    (path basename : List Char) (isMd : Bool) : TrackerState :=
  if ¬ ready then st
  else if ¬ isMd then st
  else if path ∈ st.known then st
  else
    { known := st.known ++ [path],
      files := runPipeline basename path st.files }

/-! ### Generic list lemmas -/

theorem takeWhile_app_all {p : Char → Bool} :
    ∀ {u} (w : List Char), (∀ c ∈ u, p c = true) →
      (u ++ w).takeWhile p = u ++ w.takeWhile p := by
  intro u
  induction u with
  | nil => intro w _; simp
  | cons c cs ih =>
    intro w hu
    have hc : p c = true := hu c (by simp)
    simp only [List.cons_append, List.takeWhile_cons, hc, if_true]
    rw [ih w fun x hx => hu x (by simp [hx])]

theorem dropWhile_app_all {p : Char → Bool} :
    ∀ {u} (w : List Char), (∀ c ∈ u, p c = true) →
      (u ++ w).dropWhile p = w.dropWhile p := by
  intro u
  induction u with
  | nil => intro w _; simp
  | cons c cs ih =>
    intro w hu
    have hc : p c = true := hu c (by simp)
    simp only [List.cons_append, List.dropWhile_cons, hc, if_true]
    exact ih w fun x hx => hu x (by simp [hx])

theorem stripPre_app : ∀ (T r : List Char), stripPre T (T ++ r) = some r := by
  intro T
  induction T with
  | nil => intro r; simp [stripPre]
  | cons c cs ih => intro r; simp [stripPre, ih]

theorem stripPre_eq_append : ∀ {T l r : List Char}, stripPre T l = some r → l = T ++ r := by
  intro T
  induction T with
  | nil => intro l r h; simp [stripPre] at h; simp [h]
  | cons c cs ih =>
    intro l r h
    cases l with
    | nil => simp [stripPre] at h
    | cons d ds =>
      simp only [stripPre] at h
      split at h
      · rename_i he
        subst he
        simp [ih h]
      · exact absurd h (by simp)

theorem isPrefixOf_append_self (n x : List Char) : n.isPrefixOf (n ++ x) = true := by
  induction n with
  | nil => simp [List.isPrefixOf]
  | cons c cs ih => simp [List.isPrefixOf, ih]

theorem containsSub_of_split (n : List Char) :
    ∀ (pre post : List Char), containsSub n (pre ++ (n ++ post)) = true := by
  intro pre
  induction pre with
  | nil =>
    intro post
    cases hn : n ++ post with
    | nil => simp_all [containsSub, List.append_eq_nil]
    | cons c cs => simp [containsSub, ← hn, isPrefixOf_append_self]
  | cons c cs ih =>
    intro post
    simp [containsSub, ih post]

theorem insertDedup_mem {x : List Char} :
    ∀ {acc y}, x ∈ acc → x ∈ insertDedup acc y := by
  intro acc y h
  unfold insertDedup
  split
  · exact h
  · simp [h]

theorem foldl_insertDedup_mem {x : List Char} :
    ∀ (ms : List (List Char)) (acc : List (List Char)), x ∈ acc ∨ x ∈ ms →
      x ∈ ms.foldl insertDedup acc := by
  intro ms
  induction ms with
  | nil => intro acc h; simpa using h.resolve_right (by simp)
  | cons m ms ih =>
    intro acc h
    simp only [List.foldl_cons]
    rcases h with h | h
    · exact ih _ (Or.inl (insertDedup_mem h))
    · rcases List.mem_cons.mp h with h | h
      · subst h
        refine ih _ (Or.inl ?_)
        unfold insertDedup
        split
        · assumption
        · simp
      · exact ih _ (Or.inr h)

/-! ### Equation lemmas for the scanners -/

theorem scanRefs_nil (T : List Char) : scanRefs T [] = [] := rfl

theorem scanRefs_cons_none {T c cs} (h : tryMatchRef T (c :: cs) = none) :
    scanRefs T (c :: cs) = scanRefs T cs := by
  unfold scanRefs
  simp only [List.length_cons, scanRefsF, h]

theorem scanRefs_cons_lab {T c cs lab rest}
    (h : tryMatchRef T (c :: cs) = some (some lab, rest)) :
    scanRefs T (c :: cs) = lab :: scanRefs T rest := by
  unfold scanRefs
  simp only [List.length_cons, scanRefsF, h]
  have hr := tryMatchRef_length h
  simp only [List.length_cons] at hr
  rw [scanRefsF_fuel T cs.length rest.length rest (by omega) (by omega)]

theorem scanRefs_cons_bare {T c cs rest}
    (h : tryMatchRef T (c :: cs) = some (none, rest)) :
    scanRefs T (c :: cs) = T :: scanRefs T rest := by
  unfold scanRefs
  simp only [List.length_cons, scanRefsF, h]
  have hr := tryMatchRef_length h
  simp only [List.length_cons] at hr
  rw [scanRefsF_fuel T cs.length rest.length rest (by omega) (by omega)]

theorem patchScan_nil (T : List Char) : patchScan T [] = [] := rfl

theorem patchScan_cons_none {T : List Char} {c cs} (h : tryMatchPatch (c :: cs) = none) :
    patchScan T (c :: cs) = c :: patchScan T cs := by
  unfold patchScan
  simp only [List.length_cons, patchScanF, h]

theorem patchScan_cons_some {T : List Char} {c cs tgt pipe rest}
    (h : tryMatchPatch (c :: cs) = some (tgt, pipe, rest)) :
    patchScan T (c :: cs) = patchRepl T tgt pipe ++ patchScan T rest := by
  unfold patchScan
  simp only [List.length_cons, patchScanF, h]
  have hr := tryMatchPatch_length h
  simp only [List.length_cons] at hr
  rw [patchScanF_fuel T cs.length rest.length rest (by omega) (by omega)]

/-! ### C8: no-op halt when the matcher finds nothing -/

/-- C8: for every newly created document whose name has zero matching
references in the rest of the corpus (the Link Matcher returns
`found = false`), the pipeline halts after the matching step: no document is
rewritten and no alias is merged — the corpus is returned unchanged, and no
error state exists (the pipeline is a total function). -/
theorem c8_noop_halt (T newPath : List Char) (files : List FileD)
    (h : (findMatchingLinks T newPath files).1 = false) :
    runPipeline T newPath files = files := by
  unfold runPipeline
  simp [h]

/-- Witness for C8 at a concrete corpus with no reference to the new name. -/
theorem c8_noop_halt_witness :
    (findMatchingLinks (s2l "effort") (s2l "effort.md")
        [⟨s2l "a.md", s2l "nothing to see here"⟩]).1 = false ∧
      runPipeline (s2l "effort") (s2l "effort.md")
        [⟨s2l "a.md", s2l "nothing to see here"⟩] =
        [⟨s2l "a.md", s2l "nothing to see here"⟩] :=
  ⟨by decide, c8_noop_halt _ _ _ (by decide)⟩

/-! ### C9: Known-Set gating -/

/-- C9: a creation notification for a path already present in the Known-Set
does not trigger the pipeline at all: the handler returns the state
unchanged — no matching, rewriting or alias merging occurs. -/
theorem c9_known_set_gating (ready : Bool) (st : TrackerState)
    (path basename : List Char) (isMd : Bool) (h : path ∈ st.known) :
    handleCreate ready st path basename isMd = st := by
  unfold handleCreate
  by_cases hr : ready <;> by_cases hm : isMd <;> simp [hr, hm, h]

/-- Witness for C9 at a concrete state whose Known-Set holds the path. -/
theorem c9_known_set_gating_witness :
    s2l "note.md" ∈ (TrackerState.mk [s2l "note.md"]
        [⟨s2l "note.md", s2l "See [[note]]"⟩]).known ∧
      handleCreate true
        (TrackerState.mk [s2l "note.md"] [⟨s2l "note.md", s2l "See [[note]]"⟩])
        (s2l "note.md") (s2l "note") true =
        TrackerState.mk [s2l "note.md"] [⟨s2l "note.md", s2l "See [[note]]"⟩] :=
  ⟨by decide, c9_known_set_gating _ _ _ _ _ (by decide)⟩

/-! ### Frontmatter lemmas -/

theorem fmTermSplit_clean_prefix :
    ∀ {a : List Char} (z : List Char), (∀ c ∈ a, c ≠ '\n' ∧ c ≠ '\r') →
      fmTermSplit (a ++ z) = (fmTermSplit z).map fun p => (a ++ p.1, p.2) := by
  intro a
  induction a with
  | nil =>
    intro z _
    cases h : fmTermSplit z <;> simp [h]
  | cons c cs ih =>
    intro z ha
    have hc := ha c (by simp)
    have hcn : c ≠ '\n' := hc.1
    have hcr : c ≠ '\r' := hc.2
    have step : fmTermSplit (c :: (cs ++ z)) =
        (fmTermSplit (cs ++ z)).map fun p => (c :: p.1, p.2) := by
      conv_lhs => rw [fmTermSplit.eq_def]
      split
      · rename_i heq; injection heq with h1; exact absurd h1 hcr
      · rename_i heq; injection heq with h1; exact absurd h1 hcn
      · rename_i heq
        injection heq with h1 h2
        subst h1
        subst h2
        rfl
      · rename_i heq; simp at heq
    rw [List.cons_append, step, ih z fun x hx => ha x (by simp [hx])]
    cases fmTermSplit z <;> simp

theorem fmTermSplit_terminator (y : List Char) :
    fmTermSplit ('\n' :: '-' :: '-' :: '-' :: y) = some ([], y) := by
  rw [fmTermSplit]

theorem fmTermSplit_canonical {L : List Char} (y : List Char)
    (h1 : '\n' ∉ L) (h2 : '\r' ∉ L) :
    fmTermSplit (s2l "aliases:\n  - " ++ L ++ ('\n' :: '-' :: '-' :: '-' :: y)) =
      some (s2l "aliases:\n  - " ++ L, y) := by
  have hsplit : s2l "aliases:\n  - " = s2l "aliases:" ++ '\n' :: s2l "  - " := by decide
  have e1 : s2l "aliases:\n  - " ++ L ++ ('\n' :: '-' :: '-' :: '-' :: y) =
      s2l "aliases:" ++ ('\n' :: (s2l "  - " ++ (L ++ ('\n' :: '-' :: '-' :: '-' :: y)))) := by
    rw [hsplit]
    simp [List.append_assoc]
  rw [e1, fmTermSplit_clean_prefix _ (by decide)]
  have step : fmTermSplit ('\n' :: (s2l "  - " ++ (L ++ ('\n' :: '-' :: '-' :: '-' :: y)))) =
      (fmTermSplit (s2l "  - " ++ (L ++ ('\n' :: '-' :: '-' :: '-' :: y)))).map
        fun p => ('\n' :: p.1, p.2) := by
    rw [fmTermSplit.eq_def]
    simp [s2l]
  rw [step, fmTermSplit_clean_prefix _ (by decide),
    fmTermSplit_clean_prefix _ (fun c hc => ⟨fun h => h1 (h ▸ hc), fun h => h2 (h ▸ hc)⟩),
    fmTermSplit_terminator]
  simp [s2l, List.append_assoc]

theorem fmSplit_canonical {L : List Char} (tail : List Char)
    (h1 : '\n' ∉ L) (h2 : '\r' ∉ L) :
    fmSplit (s2l "---\n" ++ (s2l "aliases:\n  - " ++ L) ++ ('\n' :: '-' :: '-' :: '-' :: tail)) =
      some (s2l "aliases:\n  - " ++ L) := by
  have e1 : s2l "---\n" ++ (s2l "aliases:\n  - " ++ L) ++ ('\n' :: '-' :: '-' :: '-' :: tail) =
      '-' :: '-' :: '-' :: '\n' :: (s2l "aliases:\n  - " ++ L ++ ('\n' :: '-' :: '-' :: '-' :: tail)) := by
    simp [s2l, List.append_assoc]
  rw [e1]
  rw [show fmSplit ('-' :: '-' :: '-' :: '\n' ::
      (s2l "aliases:\n  - " ++ L ++ ('\n' :: '-' :: '-' :: '-' :: tail))) =
      (fmTermSplit (s2l "aliases:\n  - " ++ L ++ ('\n' :: '-' :: '-' :: '-' :: tail))).map Prod.fst
    from by rw [fmSplit]]
  rw [fmTermSplit_canonical tail h1 h2]
  rfl

/-- A replacement free of `$` passes through `GetSubstitution` verbatim. -/
theorem subDollar_id {matched before after : List Char} :
    ∀ {l : List Char}, '$' ∉ l → subDollar matched before after l = l := by
  intro l
  induction l with
  | nil => intro _; rfl
  | cons c rest ih =>
    intro h
    have hc : c ≠ '$' := fun hq => h (hq ▸ List.mem_cons_self c rest)
    have hr : '$' ∉ rest := fun hx => h (List.mem_cons_of_mem c hx)
    rw [subDollar.eq_def]
    split
    · rename_i heq
      exact absurd heq (by simp)
    · rename_i heq
      injection heq with h1 _
      exact absurd h1 hc
    · rename_i heq
      injection heq with h1 h2
      rw [← h1, ← h2, ih hr]

theorem replaceFirstGo_cons_ne {b nb : List Char} (before : List Char) {c : Char}
    {cs : List Char} (h : b.isPrefixOf (c :: cs) = false) :
    replaceFirstGo b nb before (c :: cs) =
      c :: replaceFirstGo b nb (before ++ [c]) cs := by
  simp [replaceFirstGo, h]

theorem replaceFirstGo_here {b nb : List Char} (before z : List Char) :
    replaceFirstGo b nb before (b ++ z) = subDollar b before z nb ++ z := by
  cases hb : b ++ z with
  | nil =>
    obtain ⟨hbn, hzn⟩ := List.append_eq_nil.mp hb
    subst hbn
    subst hzn
    simp [replaceFirstGo, List.isPrefixOf]
  | cons c cs =>
    show (if List.isPrefixOf b (c :: cs) then
        subDollar b before ((c :: cs).drop b.length) nb ++ (c :: cs).drop b.length
      else c :: replaceFirstGo b nb (before ++ [c]) cs) = subDollar b before z nb ++ z
    rw [← hb, isPrefixOf_append_self, if_pos rfl, List.drop_left]

theorem isPrefixOf_false_of_head_ne {b : List Char} {x : Char} {bs : List Char}
    (hb : b = x :: bs) (c : Char) (cs : List Char) (h : x ≠ c) :
    b.isPrefixOf (c :: cs) = false := by
  subst hb
  simp [List.isPrefixOf, h]

/-- Replace the frontmatter body `b` inside `---\n` ++ `b` ++ `z`: when the
body does not begin with `-` or a newline, its first occurrence in the
content is its actual position, and a `$`-free replacement is spliced in
verbatim. -/
theorem replaceFirst_body {b : List Char} (nb z : List Char)
    (hne : b ≠ []) (hh : ∀ x, b.head? = some x → x ≠ '-' ∧ x ≠ '\n')
    (hnd : '$' ∉ nb) :
    replaceFirst b nb (s2l "---\n" ++ b ++ z) = s2l "---\n" ++ nb ++ z := by
  obtain ⟨x, bs, hb⟩ : ∃ x bs, b = x :: bs := by
    cases b with
    | nil => exact absurd rfl hne
    | cons x bs => exact ⟨x, bs, rfl⟩
  have hx := hh x (by simp [hb])
  have e1 : s2l "---\n" ++ b ++ z = '-' :: '-' :: '-' :: '\n' :: (b ++ z) := by
    simp [s2l]
  unfold replaceFirst
  rw [e1,
    replaceFirstGo_cons_ne _ (isPrefixOf_false_of_head_ne hb _ _ hx.1),
    replaceFirstGo_cons_ne _ (isPrefixOf_false_of_head_ne hb _ _ hx.1),
    replaceFirstGo_cons_ne _ (isPrefixOf_false_of_head_ne hb _ _ hx.1),
    replaceFirstGo_cons_ne _ (isPrefixOf_false_of_head_ne hb _ _ hx.2),
    replaceFirstGo_here, subDollar_id hnd]
  simp [s2l]

/-! ### C6: metadata creation for documents without a block -/

/-- C6 (amended): for every document content with no metadata block and
every label free of newline and carriage-return characters, merging
produces exactly the prepended block `---\naliases:\n  - L\n---\n` followed
by the original content unchanged, and that block parses back to the single
alias entry.  (For labels containing a line break followed by `---` the
original claim fails: the produced "block" closes early.) -/
theorem c6_metadata_creation (content L : List Char)
    (h0 : fmSplit content = none) (h1 : '\n' ∉ L) (h2 : '\r' ∉ L) :
    addAliasFrontmatter content L =
      s2l "---\n" ++ (s2l "aliases:\n  - " ++ L) ++ ('\n' :: '-' :: '-' :: '-' :: '\n' :: content) ∧
    fmSplit (addAliasFrontmatter content L) = some (s2l "aliases:\n  - " ++ L) := by
  have he : addAliasFrontmatter content L =
      s2l "---\n" ++ (s2l "aliases:\n  - " ++ L) ++ ('\n' :: '-' :: '-' :: '-' :: '\n' :: content) := by
    unfold addAliasFrontmatter
    rw [h0]
    simp [s2l, List.append_assoc]
  exact ⟨he, by rw [he]; exact fmSplit_canonical _ h1 h2⟩

/-- Witness for C6 at a concrete plain document and label. -/
theorem c6_metadata_creation_witness :
    fmSplit (s2l "Plain body.") = none ∧
      addAliasFrontmatter (s2l "Plain body.") (s2l "my alias") =
        s2l "---\n" ++ (s2l "aliases:\n  - " ++ s2l "my alias") ++
          ('\n' :: '-' :: '-' :: '-' :: '\n' :: s2l "Plain body.") :=
  ⟨by decide,
    (c6_metadata_creation (s2l "Plain body.") (s2l "my alias")
      (by decide) (by decide) (by decide)).1⟩

/-- C6 counterexample: with the label `a\n---\nb` the created "block"
terminates at the label's embedded `---`, so the block does not hold the
label as its single aliases entry. -/
theorem c6_counterexample :
    fmSplit (addAliasFrontmatter (s2l "x") (s2l "a\n---\nb")) =
        some (s2l "aliases:\n  - a") ∧
      (s2l "aliases:\n  - a" : List Char) ≠ s2l "aliases:\n  - " ++ s2l "a\n---\nb" := by
  refine ⟨by decide, by decide⟩

/-! ### C7: appending an aliases field to a block without one -/

/-- C7 (amended): when the content parses as `---\n` ++ body ++ `\n---` ++
rest with the frontmatter regex recovering exactly that body, the body has
no `aliases` line, is non-empty, does not begin with `-` or a newline, and
neither the body nor the label contains a `$`, merging a label appends a
block-style aliases field at the end of the metadata body; the body text
and the entire remainder of the document are preserved byte-for-byte.
(Without the body-shape conditions the original claim fails: splicing goes
through a replace-first-occurrence whose replacement string undergoes
`$`-substitution, and the occurrence search can hit the opening delimiter
instead of the body.) -/
theorem c7_append_aliases_field (b rest L : List Char)
    (hparse : fmSplit (s2l "---\n" ++ b ++ ('\n' :: '-' :: '-' :: '-' :: rest)) = some b)
    (hno : hasAliasesLine b = false)
    (hne : b ≠ [])
    (hh : ∀ x, b.head? = some x → x ≠ '-' ∧ x ≠ '\n')
    (hdb : '$' ∉ b) (hdl : '$' ∉ L) :
    addAliasFrontmatter (s2l "---\n" ++ b ++ ('\n' :: '-' :: '-' :: '-' :: rest)) L =
      s2l "---\n" ++ (b ++ s2l "\naliases:\n  - " ++ L) ++
        ('\n' :: '-' :: '-' :: '-' :: rest) := by
  have hnd : '$' ∉ b ++ s2l "\naliases:\n  - " ++ L := by
    intro hmem
    rcases List.mem_append.mp hmem with hm | hm
    · rcases List.mem_append.mp hm with hm2 | hm2
      · exact hdb hm2
      · exact (by decide : '$' ∉ s2l "\naliases:\n  - ") hm2
    · exact hdl hm
  unfold addAliasFrontmatter
  rw [hparse]
  simp only [hno, Bool.false_eq_true, if_false]
  rw [replaceFirst_body _ _ hne hh hnd]

/-- Witness for C7 at a concrete one-field body. -/
theorem c7_append_aliases_field_witness :
    fmSplit (s2l "---\n" ++ s2l "title: hi" ++ ('\n' :: '-' :: '-' :: '-' :: s2l "\nBody."))
        = some (s2l "title: hi") ∧
      hasAliasesLine (s2l "title: hi") = false ∧
      addAliasFrontmatter
          (s2l "---\n" ++ s2l "title: hi" ++ ('\n' :: '-' :: '-' :: '-' :: s2l "\nBody."))
          (s2l "my alias") =
        s2l "---\n" ++ (s2l "title: hi" ++ s2l "\naliases:\n  - " ++ s2l "my alias") ++
          ('\n' :: '-' :: '-' :: '-' :: s2l "\nBody.") :=
  ⟨by decide, by decide,
    c7_append_aliases_field (s2l "title: hi") (s2l "\nBody.") (s2l "my alias")
      (by decide) (by decide) (by decide) (by decide) (by decide) (by decide)⟩

/-- C7 counterexample: a metadata body consisting of the single character
`-` is spliced at the wrong position (the replace-first hits the opening
delimiter), corrupting the document instead of preserving it. -/
theorem c7_counterexample :
    addAliasFrontmatter (s2l "---\n-\n---\nX") (s2l "L") =
        s2l "-\naliases:\n  - L--\n-\n---\nX" ∧
      (s2l "-\naliases:\n  - L--\n-\n---\nX" : List Char) ≠
        s2l "---\n-\naliases:\n  - L\n---\nX" := by
  refine ⟨by decide, by decide⟩

/-! ### Scanner step lemmas -/

theorem tryMatchRef_none_head {T : List Char} {c : Char} {cs : List Char} (h : c ≠ '[') :
    tryMatchRef T (c :: cs) = none := by
  unfold tryMatchRef
  split
  · rename_i heq
    injection heq with h1 _
    exact absurd h1 h
  · rfl

theorem tryMatchRef_none_snd {T : List Char} {c d : Char} {cs : List Char} (h : d ≠ '[') :
    tryMatchRef T (c :: d :: cs) = none := by
  unfold tryMatchRef
  split
  · rename_i heq
    injection heq with _ h2
    injection h2 with h2' _
    exact absurd h2' h
  · rfl

theorem tryMatchPatch_none_head {c : Char} {cs : List Char} (h : c ≠ '[') :
    tryMatchPatch (c :: cs) = none := by
  unfold tryMatchPatch
  split
  · rename_i heq
    injection heq with h1 _
    exact absurd h1 h
  · rfl

theorem scanRefs_pre {T : List Char} :
    ∀ {pre : List Char} (x : List Char), (∀ c ∈ pre, c ≠ '[') →
      scanRefs T (pre ++ x) = scanRefs T x := by
  intro pre
  induction pre with
  | nil => intro x _; rfl
  | cons c cs ih =>
    intro x hpre
    rw [List.cons_append,
      scanRefs_cons_none (tryMatchRef_none_head (hpre c (by simp))),
      ih x fun y hy => hpre y (by simp [hy])]

theorem patchScan_pre {T : List Char} :
    ∀ {pre : List Char} (x : List Char), (∀ c ∈ pre, c ≠ '[') →
      patchScan T (pre ++ x) = pre ++ patchScan T x := by
  intro pre
  induction pre with
  | nil => intro x _; rfl
  | cons c cs ih =>
    intro x hpre
    rw [List.cons_append,
      patchScan_cons_none (tryMatchPatch_none_head (hpre c (by simp))),
      ih x fun y hy => hpre y (by simp [hy])]
    rfl

theorem patchScan_id_nolb {T l : List Char} (h : ∀ c ∈ l, c ≠ '[') :
    patchScan T l = l := by
  have h2 := @patchScan_pre T l [] h
  simpa [patchScan_nil] using h2

theorem neRB_all_of_not_mem {L : List Char} (hLrb : ']' ∉ L) : ∀ c ∈ L, neRB c = true := by
  intro c hc
  simp only [neRB, bne_iff_ne, ne_eq]
  exact fun h => hLrb (h ▸ hc)

theorem notStopB_all_of_not_mem {fr : List Char} (h1 : ']' ∉ fr) (h2 : '|' ∉ fr) :
    ∀ c ∈ fr, notStopB c = true := by
  intro c hc
  simp only [notStopB, bne_iff_ne, ne_eq, Bool.and_eq_true]
  exact ⟨fun h => h1 (h ▸ hc), fun h => h2 (h ▸ hc)⟩

/-- After the pipe: `refTail` on a non-empty clean label. -/
theorem refTail_pipe {L : List Char} (post : List Char)
    (hL : L ≠ []) (hLrb : ']' ∉ L) :
    refTail ('|' :: (L ++ ']' :: ']' :: post)) = some (some L, post) := by
  have hall := neRB_all_of_not_mem hLrb
  simp only [refTail]
  rw [dropWhile_app_all _ hall, takeWhile_app_all _ hall]
  simp only [List.dropWhile_cons, List.takeWhile_cons]
  have : neRB ']' = false := by decide
  simp [this, List.isEmpty_iff, hL]

/-- The matcher regex succeeds on a reference with a non-empty pipe label. -/
theorem tryMatchRef_pipe {T L : List Char} (post : List Char)
    (hL : L ≠ []) (hLrb : ']' ∉ L) :
    tryMatchRef T ('[' :: '[' :: (T ++ '|' :: (L ++ ']' :: ']' :: post))) =
      some (some L, post) := by
  simp only [tryMatchRef]
  rw [stripPre_app]
  show refTail (fragSkip ('|' :: (L ++ ']' :: ']' :: post))) = some (some L, post)
  rw [show fragSkip ('|' :: (L ++ ']' :: ']' :: post)) =
    '|' :: (L ++ ']' :: ']' :: post) from rfl]
  exact refTail_pipe post hL hLrb

/-- `fragSkip` consumes a clean fragment up to the next stop character. -/
theorem fragSkip_clean {fr : List Char} (w : List Char)
    (h1 : ']' ∉ fr) (h2 : '|' ∉ fr) (hw : ∀ c cs, w = c :: cs → notStopB c = false) :
    fragSkip ('#' :: (fr ++ w)) = w := by
  have hall := notStopB_all_of_not_mem h1 h2
  simp only [fragSkip]
  rw [dropWhile_app_all _ hall]
  cases w with
  | nil => rfl
  | cons c cs => simp [List.dropWhile_cons, hw c cs rfl]

/-- The matcher regex succeeds on a bare reference with a fragment. -/
theorem tryMatchRef_frag {T fr : List Char} (post : List Char)
    (h1 : ']' ∉ fr) (h2 : '|' ∉ fr) :
    tryMatchRef T ('[' :: '[' :: (T ++ '#' :: (fr ++ ']' :: ']' :: post))) =
      some (none, post) := by
  simp only [tryMatchRef]
  rw [stripPre_app]
  show refTail (fragSkip ('#' :: (fr ++ ']' :: ']' :: post))) = some (none, post)
  rw [fragSkip_clean _ h1 h2 (by intro c cs h; cases h; decide)]
  rfl

/-- The matcher regex succeeds on an aliased reference with a fragment. -/
theorem tryMatchRef_frag_pipe {T fr L : List Char} (post : List Char)
    (h1 : ']' ∉ fr) (h2 : '|' ∉ fr) (hL : L ≠ []) (hLrb : ']' ∉ L) :
    tryMatchRef T ('[' :: '[' :: (T ++ '#' :: (fr ++ '|' :: (L ++ ']' :: ']' :: post)))) =
      some (some L, post) := by
  simp only [tryMatchRef]
  rw [stripPre_app]
  show refTail (fragSkip ('#' :: (fr ++ '|' :: (L ++ ']' :: ']' :: post)))) =
    some (some L, post)
  rw [fragSkip_clean _ h1 h2 (by intro c cs h; cases h; decide)]
  exact refTail_pipe post hL hLrb

/-- The matcher regex succeeds on a plain bare reference. -/
theorem tryMatchRef_bare {T : List Char} (post : List Char) :
    tryMatchRef T ('[' :: '[' :: (T ++ ']' :: ']' :: post)) = some (none, post) := by
  simp only [tryMatchRef]
  rw [stripPre_app]
  rfl

/-- The matcher regex fails on a reference with an EMPTY pipe label. -/
theorem tryMatchRef_pipe_empty {T : List Char} (post : List Char) :
    tryMatchRef T ('[' :: '[' :: (T ++ '|' :: ']' :: ']' :: post)) = none := by
  simp only [tryMatchRef]
  rw [stripPre_app]
  rfl

/-- The rewriter regex at a match with a pipe segment. -/
theorem tryMatchPatch_pipe {t lab : List Char} (post : List Char)
    (ht : ∀ c ∈ t, notStopB c = true) (hlab : ∀ c ∈ lab, neRB c = true) :
    tryMatchPatch ('[' :: '[' :: (t ++ '|' :: (lab ++ ']' :: ']' :: post))) =
      some (t, some lab, post) := by
  simp only [tryMatchPatch]
  rw [dropWhile_app_all _ ht, takeWhile_app_all _ ht]
  have h1 : notStopB '|' = false := by decide
  simp only [List.dropWhile_cons, List.takeWhile_cons, h1, if_false, Bool.false_eq_true]
  rw [dropWhile_app_all _ hlab, takeWhile_app_all _ hlab]
  have h2 : neRB ']' = false := by decide
  simp [List.dropWhile_cons, List.takeWhile_cons, h2]

/-- The rewriter regex at a bare match. -/
theorem tryMatchPatch_bare {t : List Char} (post : List Char)
    (ht : ∀ c ∈ t, notStopB c = true) :
    tryMatchPatch ('[' :: '[' :: (t ++ ']' :: ']' :: post)) = some (t, none, post) := by
  simp only [tryMatchPatch]
  rw [dropWhile_app_all _ ht, takeWhile_app_all _ ht]
  have h1 : notStopB ']' = false := by decide
  simp [List.dropWhile_cons, List.takeWhile_cons, h1]

/-- Reduce the matcher on a single-document corpus that passes the
substring pre-check. -/
theorem findMatchingLinks_single {T newPath p content : List Char} (hp : p ≠ newPath)
    (hsub : containsSub ('[' :: '[' :: T) content = true) :
    findMatchingLinks T newPath [⟨p, content⟩] =
      (!(scanRefs T content).isEmpty, (scanRefs T content).foldl insertDedup []) := by
  simp [findMatchingLinks, hp, hsub]

/-! ### C10: the empty-pipe edge case `[[T|]]` -/

/-- C10: a reference `[[T|]]` with an empty display label is left
byte-for-byte unchanged by the Link Rewriter (the empty pipe segment counts
as an existing label), yet the Link Matcher does not recognize it at all: a
corpus whose only bracketed occurrence of T is `[[T|]]` yields
`found = false` and an empty label set. -/
theorem c10_empty_pipe_label (T pre post p newPath : List Char)
    (hpre : ∀ c ∈ pre, c ≠ '[') (hpost : ∀ c ∈ post, c ≠ '[')
    (hT0 : T ≠ []) (hT1 : ']' ∉ T) (hT2 : '|' ∉ T) (hT3 : '[' ∉ T)
    (hp : p ≠ newPath) :
    findMatchingLinks T newPath
        [⟨p, pre ++ '[' :: '[' :: (T ++ '|' :: ']' :: ']' :: post)⟩] = (false, []) ∧
      patchScan T (pre ++ '[' :: '[' :: (T ++ '|' :: ']' :: ']' :: post)) =
        pre ++ '[' :: '[' :: (T ++ '|' :: ']' :: ']' :: post) := by
  obtain ⟨t0, ts, hT⟩ : ∃ t0 ts, T = t0 :: ts := by
    cases T with
    | nil => exact absurd rfl hT0
    | cons t0 ts => exact ⟨t0, ts, rfl⟩
  have ht0 : t0 ≠ '[' := fun h => hT3 (h ▸ hT ▸ List.mem_cons_self t0 ts)
  have hsub : containsSub ('[' :: '[' :: T)
      (pre ++ '[' :: '[' :: (T ++ '|' :: ']' :: ']' :: post)) = true := by
    have := containsSub_of_split ('[' :: '[' :: T) pre ('|' :: ']' :: ']' :: post)
    simpa [List.append_assoc] using this
  have hms : scanRefs T (pre ++ '[' :: '[' :: (T ++ '|' :: ']' :: ']' :: post)) = [] := by
    rw [scanRefs_pre _ hpre, scanRefs_cons_none (tryMatchRef_pipe_empty post)]
    have step2 : scanRefs T ('[' :: (T ++ '|' :: ']' :: ']' :: post)) =
        scanRefs T (T ++ '|' :: ']' :: ']' :: post) := by
      rw [hT, List.cons_append, scanRefs_cons_none (tryMatchRef_none_snd ht0)]
    rw [step2, scanRefs_pre _ (fun c hc => fun h => hT3 (h ▸ hc)),
      scanRefs_cons_none (tryMatchRef_none_head (by decide)),
      scanRefs_cons_none (tryMatchRef_none_head (by decide)),
      scanRefs_cons_none (tryMatchRef_none_head (by decide))]
    have := @scanRefs_pre T post [] hpost
    rw [List.append_nil] at this
    rw [this, scanRefs_nil]
  constructor
  · rw [findMatchingLinks_single hp hsub, hms]
    rfl
  · have htall : ∀ c ∈ T, notStopB c = true := notStopB_all_of_not_mem hT1 hT2
    have hm := @tryMatchPatch_pipe T [] post htall (by simp)
    simp only [List.nil_append] at hm
    rw [patchScan_pre _ hpre, patchScan_cons_some hm, patchScan_id_nolb hpost]
    show pre ++ ('[' :: '[' :: (T ++ '|' :: ([] ++ [']', ']'])) ++ post) = _
    simp [List.append_assoc]

/-- Witness for C10 at a concrete corpus whose only occurrence of the
target is `[[effort|]]`. -/
theorem c10_empty_pipe_label_witness :
    (∀ c ∈ s2l "See ", c ≠ '[') ∧
      findMatchingLinks (s2l "effort") (s2l "effort.md")
        [⟨s2l "note.md",
          s2l "See " ++ '[' :: '[' :: (s2l "effort" ++ '|' :: ']' :: ']' :: s2l " end")⟩] =
        (false, []) ∧
      patchScan (s2l "effort")
        (s2l "See " ++ '[' :: '[' :: (s2l "effort" ++ '|' :: ']' :: ']' :: s2l " end")) =
        s2l "See " ++ '[' :: '[' :: (s2l "effort" ++ '|' :: ']' :: ']' :: s2l " end") := by
  refine ⟨by decide, ?_, ?_⟩
  · exact (c10_empty_pipe_label (s2l "effort") (s2l "See ") (s2l " end")
      (s2l "note.md") (s2l "effort.md") (by decide) (by decide) (by decide)
      (by decide) (by decide) (by decide) (by decide)).1
  · exact (c10_empty_pipe_label (s2l "effort") (s2l "See ") (s2l " end")
      (s2l "note.md") (s2l "effort.md") (by decide) (by decide) (by decide)
      (by decide) (by decide) (by decide) (by decide)).2

/-! ### C3: label fidelity for aliased references -/

/-- C3: for a reference `[[T|L]]` occurring in a scanned document (here: in
a context whose preceding text contains no `[`, so the scan reaches it),
the Link Matcher reports the label `L` (not `T`), and the Link Rewriter
leaves the reference byte-for-byte unchanged regardless of the value of
`L`, rewriting nothing before it. -/
theorem c3_label_fidelity (T L pre post p newPath : List Char)
    (hpre : ∀ c ∈ pre, c ≠ '[')
    (hL : L ≠ []) (hLrb : ']' ∉ L)
    (hT1 : ']' ∉ T) (hT2 : '|' ∉ T)
    (hp : p ≠ newPath) :
    L ∈ (findMatchingLinks T newPath
        [⟨p, pre ++ '[' :: '[' :: (T ++ '|' :: (L ++ ']' :: ']' :: post))⟩]).2 ∧
      patchScan T (pre ++ '[' :: '[' :: (T ++ '|' :: (L ++ ']' :: ']' :: post))) =
        pre ++ '[' :: '[' :: (T ++ '|' :: (L ++ [']', ']'])) ++ patchScan T post := by
  have hsub : containsSub ('[' :: '[' :: T)
      (pre ++ '[' :: '[' :: (T ++ '|' :: (L ++ ']' :: ']' :: post))) = true := by
    have := containsSub_of_split ('[' :: '[' :: T) pre ('|' :: (L ++ ']' :: ']' :: post))
    simpa [List.append_assoc] using this
  constructor
  · rw [findMatchingLinks_single hp hsub,
      scanRefs_pre _ hpre, scanRefs_cons_lab (tryMatchRef_pipe post hL hLrb)]
    exact foldl_insertDedup_mem _ _ (Or.inr (by simp))
  · have htall : ∀ c ∈ T, notStopB c = true := notStopB_all_of_not_mem hT1 hT2
    have hlaball : ∀ c ∈ L, neRB c = true := neRB_all_of_not_mem hLrb
    rw [patchScan_pre _ hpre,
      patchScan_cons_some (tryMatchPatch_pipe post htall hlaball)]
    show pre ++ ('[' :: '[' :: (T ++ '|' :: (L ++ [']', ']'])) ++ patchScan T post) = _
    simp [List.append_assoc]

/-- Witness for C3 at the concrete reference `[[effort|hard work]]`. -/
theorem c3_label_fidelity_witness :
    (s2l "hard work" ≠ []) ∧
      s2l "hard work" ∈ (findMatchingLinks (s2l "effort") (s2l "effort.md")
        [⟨s2l "note.md", s2l "See " ++ '[' :: '[' ::
          (s2l "effort" ++ '|' :: (s2l "hard work" ++ ']' :: ']' :: s2l " end"))⟩]).2 ∧
      patchScan (s2l "effort")
        (s2l "See " ++ '[' :: '[' ::
          (s2l "effort" ++ '|' :: (s2l "hard work" ++ ']' :: ']' :: s2l " end"))) =
        s2l "See " ++ '[' :: '[' :: (s2l "effort" ++ '|' :: (s2l "hard work" ++ [']', ']'])) ++
          patchScan (s2l "effort") (s2l " end") := by
  refine ⟨by decide, ?_, ?_⟩
  · exact (c3_label_fidelity (s2l "effort") (s2l "hard work") (s2l "See ") (s2l " end")
      (s2l "note.md") (s2l "effort.md") (by decide) (by decide) (by decide)
      (by decide) (by decide) (by decide)).1
  · exact (c3_label_fidelity (s2l "effort") (s2l "hard work") (s2l "See ") (s2l " end")
      (s2l "note.md") (s2l "effort.md") (by decide) (by decide) (by decide)
      (by decide) (by decide) (by decide)).2

/-! ### C4: fragment handling -/

/-- C4: a bare reference with a fragment `[[T#fr]]` yields discovered label
`T` and is rewritten to `[[T#fr|T]]` (the pipe label is appended after the
fragment, preserving the full original inner text), while `[[T#fr|L]]` is
left byte-for-byte unchanged and yields discovered label `L`.  Contexts are
quantified over any preceding text without `[` so the scan reaches the
reference. -/
theorem c4_fragment_handling (T fr L pre post p newPath : List Char)
    (hpre : ∀ c ∈ pre, c ≠ '[')
    (hT1 : ']' ∉ T) (hT2 : '|' ∉ T) (hT3 : '#' ∉ T)
    (hf1 : ']' ∉ fr) (hf2 : '|' ∉ fr)
    (hL : L ≠ []) (hLrb : ']' ∉ L)
    (hp : p ≠ newPath) :
    (T ∈ (findMatchingLinks T newPath
        [⟨p, pre ++ '[' :: '[' :: (T ++ '#' :: (fr ++ ']' :: ']' :: post))⟩]).2 ∧
      patchScan T (pre ++ '[' :: '[' :: (T ++ '#' :: (fr ++ ']' :: ']' :: post))) =
        pre ++ '[' :: '[' :: ((T ++ '#' :: fr) ++ '|' :: (T ++ [']', ']'])) ++
          patchScan T post) ∧
    (L ∈ (findMatchingLinks T newPath
        [⟨p, pre ++ '[' :: '[' :: (T ++ '#' :: (fr ++ '|' :: (L ++ ']' :: ']' :: post)))⟩]).2 ∧
      patchScan T (pre ++ '[' :: '[' :: (T ++ '#' :: (fr ++ '|' :: (L ++ ']' :: ']' :: post)))) =
        pre ++ '[' :: '[' :: ((T ++ '#' :: fr) ++ '|' :: (L ++ [']', ']'])) ++
          patchScan T post) := by
  have htall : ∀ c ∈ T ++ '#' :: fr, notStopB c = true := by
    intro c hc
    rcases List.mem_append.mp hc with h | h
    · exact notStopB_all_of_not_mem hT1 hT2 c h
    · rcases List.mem_cons.mp h with h | h
      · subst h; decide
      · exact notStopB_all_of_not_mem hf1 hf2 c h
  have hTnh : ∀ c ∈ T, (c != '#') = true := by
    intro c hc
    simp only [bne_iff_ne, ne_eq]
    exact fun h => hT3 (h ▸ hc)
  have htw : (T ++ '#' :: fr).takeWhile (fun c => c != '#') = T := by
    rw [takeWhile_app_all _ hTnh]
    simp [List.takeWhile_cons]
  refine ⟨⟨?_, ?_⟩, ?_, ?_⟩
  · have hsub : containsSub ('[' :: '[' :: T)
        (pre ++ '[' :: '[' :: (T ++ '#' :: (fr ++ ']' :: ']' :: post))) = true := by
      have := containsSub_of_split ('[' :: '[' :: T) pre ('#' :: (fr ++ ']' :: ']' :: post))
      simpa [List.append_assoc] using this
    rw [findMatchingLinks_single hp hsub, scanRefs_pre _ hpre,
      scanRefs_cons_bare (tryMatchRef_frag post hf1 hf2)]
    exact foldl_insertDedup_mem _ _ (Or.inr (by simp))
  · have hm := @tryMatchPatch_bare (T ++ '#' :: fr) post htall
    simp only [List.append_assoc, List.cons_append] at hm
    rw [patchScan_pre _ hpre, patchScan_cons_some hm]
    show pre ++ (patchRepl T (T ++ '#' :: fr) none ++ patchScan T post) = _
    simp only [patchRepl, htw, if_pos rfl]
    simp [List.append_assoc]
  · have hsub : containsSub ('[' :: '[' :: T)
        (pre ++ '[' :: '[' :: (T ++ '#' :: (fr ++ '|' :: (L ++ ']' :: ']' :: post)))) = true := by
      have := containsSub_of_split ('[' :: '[' :: T) pre
        ('#' :: (fr ++ '|' :: (L ++ ']' :: ']' :: post)))
      simpa [List.append_assoc] using this
    rw [findMatchingLinks_single hp hsub, scanRefs_pre _ hpre,
      scanRefs_cons_lab (tryMatchRef_frag_pipe post hf1 hf2 hL hLrb)]
    exact foldl_insertDedup_mem _ _ (Or.inr (by simp))
  · have hlaball : ∀ c ∈ L, neRB c = true := neRB_all_of_not_mem hLrb
    have hm := @tryMatchPatch_pipe (T ++ '#' :: fr) L post htall hlaball
    simp only [List.append_assoc, List.cons_append] at hm
    rw [patchScan_pre _ hpre, patchScan_cons_some hm]
    show pre ++ ('[' :: '[' :: ((T ++ '#' :: fr) ++ '|' :: (L ++ [']', ']'])) ++
      patchScan T post) = _
    simp [List.append_assoc]

/-- Witness for C4 at the concrete references `[[effort#goal]]` and
`[[effort#goal|my text]]`. -/
theorem c4_fragment_handling_witness :
    (']' ∉ s2l "goal" ∧ '|' ∉ s2l "goal") ∧
      s2l "effort" ∈ (findMatchingLinks (s2l "effort") (s2l "effort.md")
        [⟨s2l "note.md", s2l "x " ++ '[' :: '[' ::
          (s2l "effort" ++ '#' :: (s2l "goal" ++ ']' :: ']' :: s2l " y"))⟩]).2 ∧
      patchScan (s2l "effort")
        (s2l "x " ++ '[' :: '[' :: (s2l "effort" ++ '#' :: (s2l "goal" ++ ']' :: ']' :: s2l " y"))) =
        s2l "x " ++ '[' :: '[' ::
          ((s2l "effort" ++ '#' :: s2l "goal") ++ '|' :: (s2l "effort" ++ [']', ']'])) ++
          patchScan (s2l "effort") (s2l " y") ∧
      s2l "my text" ∈ (findMatchingLinks (s2l "effort") (s2l "effort.md")
        [⟨s2l "note.md", s2l "x " ++ '[' :: '[' ::
          (s2l "effort" ++ '#' :: (s2l "goal" ++ '|' :: (s2l "my text" ++ ']' :: ']' :: s2l " y")))⟩]).2 := by
  refine ⟨by decide, ?_, ?_, ?_⟩
  · exact (c4_fragment_handling (s2l "effort") (s2l "goal") (s2l "my text")
      (s2l "x ") (s2l " y") (s2l "note.md") (s2l "effort.md")
      (by decide) (by decide) (by decide) (by decide) (by decide) (by decide)
      (by decide) (by decide) (by decide)).1.1
  · exact (c4_fragment_handling (s2l "effort") (s2l "goal") (s2l "my text")
      (s2l "x ") (s2l " y") (s2l "note.md") (s2l "effort.md")
      (by decide) (by decide) (by decide) (by decide) (by decide) (by decide)
      (by decide) (by decide) (by decide)).1.2
  · exact (c4_fragment_handling (s2l "effort") (s2l "goal") (s2l "my text")
      (s2l "x ") (s2l " y") (s2l "note.md") (s2l "effort.md")
      (by decide) (by decide) (by decide) (by decide) (by decide) (by decide)
      (by decide) (by decide) (by decide)).2.1

/-! ### C1: no match without an exact spec-grammar reference -/

theorem specRefAt_of_tryMatchRef {T l : List Char} {x}
    (h : tryMatchRef T l = some x) : specRefAt T l = true := by
  unfold tryMatchRef at h
  split at h
  case h_2 => exact absurd h (by simp)
  case h_1 _ l1 =>
    cases hs : stripPre T l1 with
    | none => rw [hs] at h; exact absurd h (by simp)
    | some l2 =>
      rw [hs] at h
      replace h : refTail (fragSkip l2) = some x := h
      have hsp : stripPre ('[' :: '[' :: T) ('[' :: '[' :: l1) = some l2 := by
        simp [stripPre, hs]
      unfold specRefAt
      rw [hsp]
      show (match pipeSkip (fragSkip l2) with
        | ']' :: ']' :: _ => true
        | _ => false) = true
      unfold refTail at h
      split at h
      · rename_i r heq
        split at h
        · rename_i rest heq2
          rw [heq]
          show (match List.dropWhile neRB r with
            | ']' :: ']' :: _ => true
            | _ => false) = true
          rw [heq2]
          rfl
        · exact absurd h (by simp)
      · rename_i rest heq
        rw [heq]
        rfl
      · exact absurd h (by simp)

theorem scanRefs_empty_of_no_specRef {T : List Char} :
    ∀ l : List Char, specContainsRef T l = false → scanRefs T l = [] := by
  intro l
  induction l with
  | nil => intro _; rfl
  | cons c cs ih =>
    intro h
    simp only [specContainsRef, Bool.or_eq_false_iff] at h
    cases hm : tryMatchRef T (c :: cs) with
    | some x =>
      exact absurd (specRefAt_of_tryMatchRef hm) (by simp [h.1])
    | none =>
      rw [scanRefs_cons_none hm]
      exact ih h.2

/-- C1: for every corpus and target name T, if no document other than the
excluded new document contains a bracketed reference (per the spec's
Reference grammar, which includes fragment-only, label-only, and
fragment-plus-label forms) whose segment before `#` and `|` equals T
exactly, then the Link Matcher returns `found = false` and an empty label
set.  In particular strict-substring occurrences such as `[[Tx]]` or
`[[xT]]` are never counted (they contain no exact reference, as the
witness shows). -/
theorem c1_no_partial_containment (T newPath : List Char) (files : List FileD)
    (hT : T ≠ [])
    (h : ∀ f ∈ files, f.path ≠ newPath → specContainsRef T f.content = false) :
    findMatchingLinks T newPath files = (false, []) := by
  unfold findMatchingLinks
  suffices hgen : ∀ fs : List FileD, (∀ f ∈ fs, f.path ≠ newPath →
      specContainsRef T f.content = false) →
      fs.foldl (fun acc f =>
        if f.path = newPath then acc
        else if ¬ containsSub ('[' :: '[' :: T) f.content then acc
        else
          let ms := scanRefs T f.content
          (acc.1 || !ms.isEmpty, ms.foldl insertDedup acc.2)) (false, []) = (false, []) by
    exact hgen files h
  intro fs
  induction fs with
  | nil => intro _; rfl
  | cons f fs ih =>
    intro hall
    simp only [List.foldl_cons]
    by_cases hpath : f.path = newPath
    · rw [if_pos hpath]
      exact ih fun g hg => hall g (by simp [hg])
    · rw [if_neg hpath]
      by_cases hsub : containsSub ('[' :: '[' :: T) f.content
      · have hms : scanRefs T f.content = [] :=
          scanRefs_empty_of_no_specRef _ (hall f (by simp) hpath)
        simp only [hsub, not_true_eq_false, if_false, hms]
        exact ih fun g hg => hall g (by simp [hg])
      · simp only [hsub, not_false_eq_true, if_true]
        exact ih fun g hg => hall g (by simp [hg])

/-- Witness for C1: a corpus whose only bracketed occurrences of `T` are the
strict-substring forms `[[Tx]]` and `[[xT]]` (plus a self-reference in the
excluded new document) yields `found = false` and no labels. -/
theorem c1_no_partial_containment_witness :
    (s2l "T" ≠ []) ∧
      specContainsRef (s2l "T") (s2l "x [[Tx]] y [[xT]] z") = false ∧
      findMatchingLinks (s2l "T") (s2l "new.md")
        [⟨s2l "a.md", s2l "x [[Tx]] y [[xT]] z"⟩,
         ⟨s2l "new.md", s2l "self [[T]]"⟩] = (false, []) := by
  refine ⟨by decide, by decide, ?_⟩
  exact c1_no_partial_containment (s2l "T") (s2l "new.md")
    [⟨s2l "a.md", s2l "x [[Tx]] y [[xT]] z"⟩, ⟨s2l "new.md", s2l "self [[T]]"⟩]
    (by decide) (by decide)

/-! ### C5: Alias Merger idempotence -/

/-- No-frontmatter branch of the merger, in block-decomposed form. -/
theorem addAlias_no_fm (c0 L : List Char) (h0 : fmSplit c0 = none) :
    addAliasFrontmatter c0 L =
      s2l "---\n" ++ (s2l "aliases:\n  - " ++ L) ++ ('\n' :: '-' :: '-' :: '-' :: '\n' :: c0) := by
  unfold addAliasFrontmatter
  rw [h0]
  simp [s2l, List.append_assoc]

theorem takeWhile_all {p : Char → Bool} {l : List Char} (h : ∀ c ∈ l, p c = true) :
    l.takeWhile p = l := by
  have := @takeWhile_app_all p l [] h
  simpa using this

theorem dropWhile_eq_self_of_trim {L : List Char} (h : trimWs L = L) :
    L.dropWhile isWsB = L := by
  cases L with
  | nil => rfl
  | cons c cs =>
    by_cases hc : isWsB c
    · exfalso
      have hlen : (trimWs (c :: cs)).length ≤ cs.length := by
        unfold trimWs
        have l1 : ((c :: cs).dropWhile isWsB).length ≤ cs.length := by
          simp [List.dropWhile_cons, hc]
          exact length_dropWhile_le' isWsB cs
        calc ((((c :: cs).dropWhile isWsB).reverse.dropWhile isWsB).reverse).length
            = (((c :: cs).dropWhile isWsB).reverse.dropWhile isWsB).length := by simp
          _ ≤ ((c :: cs).dropWhile isWsB).reverse.length := length_dropWhile_le' _ _
          _ = ((c :: cs).dropWhile isWsB).length := by simp
          _ ≤ cs.length := l1
      rw [h] at hlen
      simp at hlen
    · simp [List.dropWhile_cons, hc]

theorem splitOn_no_sep {sep : Char} : ∀ {l : List Char}, (∀ c ∈ l, c ≠ sep) →
    splitOn sep l = [l] := by
  intro l
  induction l with
  | nil => intro _; rfl
  | cons c cs ih =>
    intro h
    have hc : c ≠ sep := h c (by simp)
    simp only [splitOn, if_neg hc]
    rw [ih fun x hx => h x (by simp [hx])]

theorem splitOn_append_sep {sep : Char} : ∀ {u : List Char} (v : List Char),
    (∀ c ∈ u, c ≠ sep) → splitOn sep (u ++ sep :: v) = u :: splitOn sep v := by
  intro u
  induction u with
  | nil => intro v _; simp [splitOn]
  | cons c cs ih =>
    intro v h
    have hc : c ≠ sep := h c (by simp)
    show splitOn sep (c :: (cs ++ sep :: v)) = (c :: cs) :: splitOn sep v
    simp only [splitOn, if_neg hc]
    rw [ih v fun x hx => h x (by simp [hx])]

/-- The canonical merged body splits into its two lines. -/
theorem splitNl_canonical {L : List Char} (h1 : '\n' ∉ L) :
    splitOn '\n' (s2l "aliases:\n  - " ++ L) = [s2l "aliases:", s2l "  - " ++ L] := by
  have e : s2l "aliases:\n  - " ++ L = s2l "aliases:" ++ '\n' :: (s2l "  - " ++ L) := by
    rw [show s2l "aliases:\n  - " = s2l "aliases:" ++ '\n' :: s2l "  - " from rfl]
    simp [List.append_assoc]
  rw [e, splitOn_append_sep _ (by decide)]
  rw [splitOn_no_sep]
  intro c hc
  rcases List.mem_append.mp hc with h | h
  · exact (by decide : ∀ x ∈ s2l "  - ", x ≠ '\n') c h
  · exact fun hq => h1 (hq ▸ h)

/-- Parsing the single item line of the canonical body recovers the label. -/
theorem itemOf_canonical {L : List Char} (h1 : '\n' ∉ L) (h2 : '\r' ∉ L)
    (h5 : '\u2028' ∉ L) (h6 : '\u2029' ∉ L) (h3 : trimWs L = L) :
    itemOf (s2l "  - " ++ L) = some L := by
  show some (((' ' :: L).dropWhile isWsB).takeWhile (fun ch => !(isLineTerm ch))) = some L
  rw [show (' ' :: L).dropWhile isWsB = L.dropWhile isWsB from rfl,
    dropWhile_eq_self_of_trim h3,
    takeWhile_all (fun c hc => by
      have hn : c ≠ '\n' := fun hq => h1 (hq ▸ hc)
      have hr : c ≠ '\r' := fun hq => h2 (hq ▸ hc)
      have hs : c ≠ '\u2028' := fun hq => h5 (hq ▸ hc)
      have ht : c ≠ '\u2029' := fun hq => h6 (hq ▸ hc)
      have e : isLineTerm c = false := by
        unfold isLineTerm
        rw [decide_eq_false hn, decide_eq_false hr,
          decide_eq_false hs, decide_eq_false ht]
        rfl
      rw [e]
      rfl)]

/-- The block merge on the canonical body finds the label present and
changes nothing. -/
theorem blockMerge_canonical {L : List Char}
    (h1 : '\n' ∉ L) (h2 : '\r' ∉ L) (h5 : '\u2028' ∉ L) (h6 : '\u2029' ∉ L)
    (h3 : trimWs L = L) (h4 : stripQ L = L) :
    blockMerge (s2l "aliases:\n  - " ++ L) L = none := by
  have hitems : blockItems [s2l "aliases:", s2l "  - " ++ L] = [L] := by
    unfold blockItems
    rw [show blockStart [s2l "aliases:", s2l "  - " ++ L] = 1 from rfl]
    show (collectItems [s2l "  - " ++ L]).map stripQ = [L]
    unfold collectItems
    rw [itemOf_canonical h1 h2 h5 h6 h3]
    show (L :: collectItems []).map stripQ = [L]
    simp [collectItems, h4]
  unfold blockMerge
  rw [splitNl_canonical h1, hitems]
  simp

/-- A state predicate for scanning positions of the multiline inline-alias
regex: no line-start position from here on parses as an inline match. -/
def NoHit : Bool → List Char → Prop
  | _, [] => True
  | b, c :: cs => (b = true → inlineParse (c :: cs) = none) ∧ NoHit (isLineTerm c) cs

theorem findInlineGo_none_of_NoHit :
    ∀ (l : List Char) (b : Bool), NoHit b l → findInlineGo b l = none := by
  intro l
  induction l with
  | nil => intro b _; rfl
  | cons c cs ih =>
    intro b h
    obtain ⟨ha, hrest⟩ := h
    cases b with
    | false =>
      show ((findInlineGo (isLineTerm c) cs).map
        fun p => (c :: p.1, p.2.1, p.2.2)) = none
      rw [ih _ hrest]
      rfl
    | true =>
      have hip := ha rfl
      show (match inlineParse (c :: cs) with
        | some (inner, post) => some ([], inner, post)
        | none => (findInlineGo (isLineTerm c) cs).map
            fun p => (c :: p.1, p.2.1, p.2.2)) = none
      rw [hip, ih _ hrest]
      rfl

theorem NoHit_clean {L : List Char} (b : Bool) (h1 : '\n' ∉ L) (h2 : '\r' ∉ L)
    (h5 : '\u2028' ∉ L) (h6 : '\u2029' ∉ L)
    (hb : b = false) : NoHit b L := by
  subst hb
  induction L with
  | nil => trivial
  | cons c cs ih =>
    refine ⟨fun h => absurd h (by simp), ?_⟩
    have hn : c ≠ '\n' := fun h => h1 (h ▸ List.mem_cons_self c cs)
    have hr : c ≠ '\r' := fun h => h2 (h ▸ List.mem_cons_self c cs)
    have hs : c ≠ '\u2028' := fun h => h5 (h ▸ List.mem_cons_self c cs)
    have ht : c ≠ '\u2029' := fun h => h6 (h ▸ List.mem_cons_self c cs)
    have hb2 : isLineTerm c = false := by
      unfold isLineTerm
      rw [decide_eq_false hn, decide_eq_false hr,
        decide_eq_false hs, decide_eq_false ht]
      rfl
    show NoHit (isLineTerm c) cs
    rw [hb2]
    exact ih (fun hx => h1 (List.mem_cons_of_mem c hx))
      (fun hx => h2 (List.mem_cons_of_mem c hx))
      (fun hx => h5 (List.mem_cons_of_mem c hx))
      (fun hx => h6 (List.mem_cons_of_mem c hx))

/-- The inline-aliases regex never matches inside the canonical body. -/
theorem findInline_canonical {L : List Char} (h1 : '\n' ∉ L) (h2 : '\r' ∉ L)
    (h5 : '\u2028' ∉ L) (h6 : '\u2029' ∉ L) :
    findInline (s2l "aliases:\n  - " ++ L) = none := by
  apply findInlineGo_none_of_NoHit
  show NoHit true
    ('a' :: 'l' :: 'i' :: 'a' :: 's' :: 'e' :: 's' :: ':' :: '\n' :: ' ' :: ' ' :: '-' :: ' ' :: L)
  exact ⟨fun _ => rfl, ⟨fun _ => rfl, ⟨fun _ => rfl, ⟨fun _ => rfl, ⟨fun _ => rfl,
    ⟨fun _ => rfl, ⟨fun _ => rfl, ⟨fun _ => rfl, ⟨fun _ => rfl, ⟨fun _ => rfl,
    ⟨fun _ => rfl, ⟨fun _ => rfl, ⟨fun _ => rfl,
      NoHit_clean _ h1 h2 h5 h6 rfl⟩⟩⟩⟩⟩⟩⟩⟩⟩⟩⟩⟩⟩

/-- Second-merge no-op: when the body parses back, has an aliases line, no
inline match, and the block merge finds the label, nothing changes. -/
theorem addAlias_noop {content body L : List Char}
    (hparse : fmSplit content = some body)
    (hhas : hasAliasesLine body = true)
    (hinl : findInline body = none)
    (hblk : blockMerge body L = none) :
    addAliasFrontmatter content L = content := by
  unfold addAliasFrontmatter
  rw [hparse]
  show (if hasAliasesLine body = true then _ else _) = content
  rw [hhas]
  simp only [if_true]
  rw [hinl]
  show (match blockMerge body L with
    | none => content
    | some newFmBody => replaceFirst body newFmBody content) = content
  rw [hblk]

/-- C5 (amended): the Alias Merger is idempotent per (document, label) pair
for labels that contain no line terminator (newline, carriage return,
U+2028 or U+2029) and are fixed by whitespace trimming (the full JS set,
so no leading or trailing Unicode whitespace either) and by quote
stripping, merging into a document without a metadata block: the first
merge creates the block with exactly one aliases entry holding the label,
and the second merge is a strict no-op.  (For labels wrapped in quote
characters, or carrying leading whitespace such as a no-break space, the
original claim fails: the stored entry is trimmed and quote-stripped before
comparison, so the raw label is never found and is re-inserted on every
merge.) -/
theorem c5_alias_merge_idempotent (c0 L : List Char)
    (h0 : fmSplit c0 = none)
    (h1 : '\n' ∉ L) (h2 : '\r' ∉ L) (h5 : '\u2028' ∉ L) (h6 : '\u2029' ∉ L)
    (h3 : trimWs L = L) (h4 : stripQ L = L) :
    addAliasFrontmatter (addAliasFrontmatter c0 L) L = addAliasFrontmatter c0 L ∧
      fmSplit (addAliasFrontmatter c0 L) = some (s2l "aliases:\n  - " ++ L) ∧
      (collectItems ((splitOn '\n' (s2l "aliases:\n  - " ++ L)).drop 1)).map stripQ = [L] := by
  have hform := addAlias_no_fm c0 L h0
  have hparse : fmSplit (addAliasFrontmatter c0 L) = some (s2l "aliases:\n  - " ++ L) := by
    rw [hform]
    exact fmSplit_canonical _ h1 h2
  refine ⟨?_, hparse, ?_⟩
  · exact addAlias_noop hparse rfl (findInline_canonical h1 h2 h5 h6)
      (blockMerge_canonical h1 h2 h5 h6 h3 h4)
  · rw [show (splitOn '\n' (s2l "aliases:\n  - " ++ L)).drop 1 =
        [s2l "  - " ++ L] from by rw [splitNl_canonical h1]; rfl]
    unfold collectItems
    rw [itemOf_canonical h1 h2 h5 h6 h3]
    show (L :: collectItems []).map stripQ = [L]
    simp [collectItems, h4]

/-- Witness for C5 at a concrete document and plain label. -/
theorem c5_alias_merge_idempotent_witness :
    fmSplit (s2l "hello world") = none ∧
      addAliasFrontmatter (addAliasFrontmatter (s2l "hello world") (s2l "my alias"))
          (s2l "my alias") =
        addAliasFrontmatter (s2l "hello world") (s2l "my alias") ∧
      (collectItems ((splitOn '\n' (s2l "aliases:\n  - " ++ s2l "my alias")).drop 1)).map
          stripQ = [s2l "my alias"] := by
  refine ⟨by decide, ?_, ?_⟩
  · exact (c5_alias_merge_idempotent (s2l "hello world") (s2l "my alias")
      (by decide) (by decide) (by decide) (by decide) (by decide) (by decide)
      (by decide)).1
  · exact (c5_alias_merge_idempotent (s2l "hello world") (s2l "my alias")
      (by decide) (by decide) (by decide) (by decide) (by decide) (by decide)
      (by decide)).2.2

/-- C5 counterexample: for the quoted label `'x'` the second merge inserts
the label again, so double merge differs from single merge. -/
theorem c5_counterexample :
    addAliasFrontmatter (addAliasFrontmatter (s2l "hello") (s2l "'x'")) (s2l "'x'") ≠
      addAliasFrontmatter (s2l "hello") (s2l "'x'") := by
  decide

/-! ### C2: idempotence of the Link Rewriter

The proof decomposes a content string at its first `]`.  Before the first
`]` no regex match can complete; a match can only close at a doubled `]]`,
and it starts at the first `[[` pair before it.  Rewritten matches carry a
pipe segment and reproduce themselves on a second pass. -/

/-- The list does not start with `]` (vacuously true for `[]`). -/
def GoodB (b : List Char) : Prop := ∀ d b', b = d :: b' → d ≠ ']'

/-- The list is empty or starts with a single, undoubled `]`. -/
def BadTail (w : List Char) : Prop :=
  ∀ c rest, w = c :: rest → c = ']' ∧ GoodB rest

/-- No two adjacent `[` characters anywhere in the list. -/
def noPair : List Char → Bool
  | '[' :: '[' :: _ => false
  | _ :: cs => noPair cs
  | [] => true

theorem noPair_cons_eq {x : Char} {l : List Char}
    (h : ¬(x = '[' ∧ ∃ l', l = '[' :: l')) : noPair (x :: l) = noPair l := by
  rw [noPair.eq_def]
  split
  · rename_i heq
    injection heq with h1 h2
    exact absurd ⟨h1, _, h2⟩ h
  · rename_i heq
    injection heq with h1 h2
    rw [h2]
  · rename_i heq
    exact absurd heq (by simp)

theorem noPair_true_tail {x : Char} {l : List Char} (h : noPair (x :: l) = true) :
    noPair l = true := by
  by_cases hp : x = '[' ∧ ∃ l', l = '[' :: l'
  · obtain ⟨h1, l', h2⟩ := hp
    subst h1
    subst h2
    exact absurd h (by rw [show noPair ('[' :: '[' :: l') = false from rfl]; simp)
  · rwa [noPair_cons_eq hp] at h

/-- First occurrence split of a character. -/
theorem firstOcc (ch : Char) : ∀ l : List Char,
    (∀ c ∈ l, c ≠ ch) ∨ ∃ u v, l = u ++ ch :: v ∧ ∀ c ∈ u, c ≠ ch := by
  intro l
  induction l with
  | nil => left; simp
  | cons x l' ih =>
    by_cases hx : x = ch
    · right
      exact ⟨[], l', by rw [hx]; rfl, by simp⟩
    · rcases ih with h | ⟨u, v, huv, hu⟩
      · left
        intro c hc
        rcases List.mem_cons.mp hc with h1 | h1
        · exact h1 ▸ hx
        · exact h c h1
      · right
        refine ⟨x :: u, v, by rw [huv]; rfl, ?_⟩
        intro c hc
        rcases List.mem_cons.mp hc with h1 | h1
        · exact h1 ▸ hx
        · exact hu c h1

/-- First `[[` pair split. -/
theorem firstPair : ∀ a : List Char,
    noPair a = true ∨ ∃ p w, a = p ++ '[' :: '[' :: w ∧ noPair (p ++ ['[']) = true := by
  intro a
  induction a with
  | nil => left; rfl
  | cons x a' ih =>
    by_cases hx : x = '[' ∧ ∃ w, a' = '[' :: w
    · obtain ⟨hx1, w, hw⟩ := hx
      right
      exact ⟨[], w, by rw [hx1, hw]; rfl, rfl⟩
    · rcases ih with h | ⟨p, w, hpw, hnp⟩
      · left
        rw [noPair_cons_eq hx]
        exact h
      · right
        refine ⟨x :: p, w, by rw [hpw]; rfl, ?_⟩
        have hne : ¬(x = '[' ∧ ∃ l', p ++ ['['] = '[' :: l') := by
          rintro ⟨hx1, l', hl⟩
          cases p with
          | nil =>
            exact hx ⟨hx1, '[' :: w, by rw [hpw]; rfl⟩
          | cons z p'' =>
            have hz : z = '[' := by
              have : z :: (p'' ++ ['[']) = '[' :: l' := by simpa using hl
              injection this with h1 _
            exact hx ⟨hx1, p'' ++ '[' :: '[' :: w, by rw [hpw, hz]; rfl⟩
        show noPair (x :: (p ++ ['['])) = true
        rw [noPair_cons_eq hne]
        exact hnp

theorem mem_of_mem_dropWhile {p : Char → Bool} {c : Char} :
    ∀ {l : List Char}, c ∈ l.dropWhile p → c ∈ l := by
  intro l
  induction l with
  | nil => intro h; simpa using h
  | cons x l' ih =>
    intro h
    by_cases hx : p x
    · simp only [List.dropWhile_cons, hx, if_true] at h
      exact List.mem_cons_of_mem x (ih h)
    · simp only [List.dropWhile_cons, hx] at h
      simpa using h

theorem mem_of_mem_takeWhile {p : Char → Bool} {c : Char} :
    ∀ {l : List Char}, c ∈ l.takeWhile p → c ∈ l := by
  intro l
  induction l with
  | nil => intro h; simpa using h
  | cons x l' ih =>
    intro h
    by_cases hx : p x
    · simp only [List.takeWhile_cons, hx, if_true] at h
      rcases List.mem_cons.mp h with h1 | h1
      · simp [h1]
      · exact List.mem_cons_of_mem x (ih h1)
    · simp only [List.takeWhile_cons, hx] at h
      simp at h

/-- The body of the rewriter regex after a literal `[[`. -/
def tmpBody (r : List Char) : Option (List Char × Option (List Char) × List Char) :=
  match r.dropWhile notStopB with
  | ']' :: ']' :: rest => some (r.takeWhile notStopB, none, rest)
  | '|' :: r1 =>
    match r1.dropWhile neRB with
    | ']' :: ']' :: rest => some (r.takeWhile notStopB, some (r1.takeWhile neRB), rest)
    | _ => none
  | _ => none

theorem tryMatchPatch_eq_body (r : List Char) :
    tryMatchPatch ('[' :: '[' :: r) = tmpBody r := rfl

theorem tryMatchPatch_none_snd {c d : Char} {cs : List Char} (h : d ≠ '[') :
    tryMatchPatch (c :: d :: cs) = none := by
  unfold tryMatchPatch
  split
  · rename_i heq
    injection heq with _ h2
    injection h2 with h2' _
    exact absurd h2' h
  · rfl

theorem dropWhile_badtail {p : Char → Bool} (hp : p ']' = false) {w : List Char}
    (hw : BadTail w) : w.dropWhile p = w := by
  cases w with
  | nil => rfl
  | cons c rest =>
    have hc := (hw c rest rfl).1
    subst hc
    simp [List.dropWhile_cons, hp]

theorem tmpBody_none_badtail : ∀ (a2 w : List Char), (∀ c ∈ a2, c ≠ ']') → BadTail w →
    tmpBody (a2 ++ w) = none := by
  intro a2 w ha hw
  rcases firstOcc '|' a2 with hnp | ⟨u, v, huv, hu⟩
  · have hall : ∀ c ∈ a2, notStopB c = true := by
      intro c hc
      simp only [notStopB, Bool.and_eq_true, bne_iff_ne, ne_eq]
      exact ⟨ha c hc, hnp c hc⟩
    unfold tmpBody
    rw [dropWhile_app_all _ hall, dropWhile_badtail (by decide) hw]
    split
    · rename_i rest
      exact absurd rfl ((hw ']' (']' :: rest) rfl).2 ']' rest rfl)
    · rename_i r1
      exact absurd (hw '|' r1 rfl).1 (by decide)
    · rfl
  · have hu' : ∀ c ∈ u, notStopB c = true := by
      intro c hc
      have hcm : c ∈ a2 := by rw [huv]; exact List.mem_append.mpr (Or.inl hc)
      simp only [notStopB, Bool.and_eq_true, bne_iff_ne, ne_eq]
      exact ⟨ha c hcm, hu c hc⟩
    have hv : ∀ c ∈ v, neRB c = true := by
      intro c hc
      have hcm : c ∈ a2 := by rw [huv]; simp [hc]
      simp only [neRB, bne_iff_ne, ne_eq]
      exact ha c hcm
    subst huv
    unfold tmpBody
    have e : (u ++ '|' :: v) ++ w = u ++ '|' :: (v ++ w) := by simp
    rw [e, dropWhile_app_all _ hu',
      show ('|' :: (v ++ w)).dropWhile notStopB = '|' :: (v ++ w) from by
        simp [List.dropWhile_cons, notStopB]]
    split
    · rename_i rest heq
      exact absurd (List.cons.inj heq).1 (by decide)
    · rename_i r1 heq
      have hr1 : r1 = v ++ w := ((List.cons.inj heq).2).symm
      subst hr1
      rw [dropWhile_app_all _ hv, dropWhile_badtail (by decide) hw]
      split
      · rename_i rest
        exact absurd rfl ((hw ']' (']' :: rest) rfl).2 ']' rest rfl)
      · rfl
    · rfl

/-- The rewriter regex fails at any position whose text is a `]`-free
stretch followed by nothing, or by a single undoubled `]`. -/
theorem tmp_none_of_badtail : ∀ (a w : List Char), (∀ c ∈ a, c ≠ ']') → BadTail w →
    tryMatchPatch (a ++ w) = none := by
  intro a w ha hw
  cases a with
  | nil =>
    cases w with
    | nil => rfl
    | cons c rest =>
      have hc := (hw c rest rfl).1
      subst hc
      exact tryMatchPatch_none_head (by decide)
  | cons x a1 =>
    by_cases hx : x = '['
    · subst hx
      cases a1 with
      | nil =>
        cases w with
        | nil => rfl
        | cons c rest =>
          have hc := (hw c rest rfl).1
          subst hc
          exact tryMatchPatch_none_snd (by decide)
      | cons y a2 =>
        by_cases hy : y = '['
        · subst hy
          show tryMatchPatch ('[' :: '[' :: (a2 ++ w)) = none
          rw [tryMatchPatch_eq_body]
          exact tmpBody_none_badtail a2 w (fun c hc => ha c (by simp [hc])) hw
        · exact tryMatchPatch_none_snd hy
    · exact tryMatchPatch_none_head hx

theorem BadTail_nil : BadTail [] := fun c rest h => absurd h (by simp)

theorem BadTail_rb {b : List Char} (hb : GoodB b) : BadTail (']' :: b) := by
  intro c rest h
  injection h with h1 h2
  exact ⟨h1.symm, h2 ▸ hb⟩

/-- A `]`-free content is a fixed point of the rewriting pass. -/
theorem patchScan_id_norb {T : List Char} :
    ∀ {cs : List Char}, (∀ c ∈ cs, c ≠ ']') → patchScan T cs = cs := by
  intro cs
  induction cs with
  | nil => intro _; rfl
  | cons c cs' ih =>
    intro h
    have hfail : tryMatchPatch (c :: cs') = none := by
      have := tmp_none_of_badtail (c :: cs') [] h BadTail_nil
      rwa [List.append_nil] at this
    rw [patchScan_cons_none hfail, ih fun x hx => h x (by simp [hx])]

/-- The scan walks over a `]`-free stretch ending in a single undoubled `]`. -/
theorem patchScan_single_rb {T : List Char} :
    ∀ (a b : List Char), (∀ c ∈ a, c ≠ ']') → GoodB b →
      patchScan T (a ++ ']' :: b) = a ++ ']' :: patchScan T b := by
  intro a
  induction a with
  | nil =>
    intro b _ _
    simp only [List.nil_append]
    rw [patchScan_cons_none (tryMatchPatch_none_head (by decide))]
  | cons x a' ih =>
    intro b ha hb
    have hfail : tryMatchPatch (x :: (a' ++ ']' :: b)) = none :=
      tmp_none_of_badtail (x :: a') (']' :: b) ha (BadTail_rb hb)
    show patchScan T (x :: (a' ++ ']' :: b)) = x :: (a' ++ ']' :: patchScan T b)
    rw [patchScan_cons_none hfail, ih b (fun c hc => ha c (by simp [hc])) hb]

/-- The scan walks over a pairless `]`-free stretch ending in `]]`. -/
theorem patchScan_double_rb {T : List Char} :
    ∀ (a b : List Char), (∀ c ∈ a, c ≠ ']') → noPair a = true →
      patchScan T (a ++ ']' :: ']' :: b) = a ++ ']' :: ']' :: patchScan T b := by
  intro a
  induction a with
  | nil =>
    intro b _ _
    simp only [List.nil_append]
    rw [patchScan_cons_none (tryMatchPatch_none_head (by decide)),
      patchScan_cons_none (tryMatchPatch_none_head (by decide))]
  | cons x a' ih =>
    intro b ha hnp
    have hfail : tryMatchPatch (x :: (a' ++ ']' :: ']' :: b)) = none := by
      by_cases hx : x = '['
      · subst hx
        cases a' with
        | nil => exact tryMatchPatch_none_snd (by decide)
        | cons y a'' =>
          by_cases hy : y = '['
          · subst hy
            exact absurd hnp (by
              rw [show noPair ('[' :: '[' :: a'') = false from rfl]
              simp)
          · exact tryMatchPatch_none_snd hy
      · exact tryMatchPatch_none_head hx
    show patchScan T (x :: (a' ++ ']' :: ']' :: b)) = x :: (a' ++ ']' :: ']' :: patchScan T b)
    rw [patchScan_cons_none hfail,
      ih b (fun c hc => ha c (by simp [hc])) (noPair_true_tail hnp)]

/-- The scan walks through a stretch with no `[[` pair (even against the
following `[[`) and then fires the match found there. -/
theorem patchScan_through {T : List Char} :
    ∀ (p : List Char) {w t al rest}, noPair (p ++ ['[']) = true →
      tryMatchPatch ('[' :: '[' :: w) = some (t, al, rest) →
      patchScan T (p ++ '[' :: '[' :: w) = p ++ (patchRepl T t al ++ patchScan T rest) := by
  intro p
  induction p with
  | nil =>
    intro w t al rest _ hm
    simp only [List.nil_append]
    rw [patchScan_cons_some hm]
  | cons x p' ih =>
    intro w t al rest hnp hm
    have hfail : tryMatchPatch (x :: (p' ++ '[' :: '[' :: w)) = none := by
      by_cases hx : x = '['
      · subst hx
        cases p' with
        | nil =>
          exact absurd hnp (by
            rw [show noPair (('[' :: ([] : List Char)) ++ ['[']) = false from rfl]
            simp)
        | cons z p'' =>
          by_cases hz : z = '['
          · subst hz
            exact absurd hnp (by
              rw [show noPair (('[' :: '[' :: p'') ++ ['[']) = false from rfl]
              simp)
          · exact tryMatchPatch_none_snd hz
      · exact tryMatchPatch_none_head hx
    show patchScan T (x :: (p' ++ '[' :: '[' :: w)) =
      x :: (p' ++ (patchRepl T t al ++ patchScan T rest))
    rw [patchScan_cons_none hfail, ih (noPair_true_tail hnp) hm]

/-- Every replacement the callback produces starts with `[[`. -/
theorem patchRepl_shape (T t : List Char) (al : Option (List Char)) :
    ∃ rr, patchRepl T t al = '[' :: '[' :: rr := by
  unfold patchRepl
  cases al with
  | some lab => exact ⟨_, rfl⟩
  | none =>
    by_cases h : t.takeWhile (fun c => c != '#') = T
    · exact ⟨_, by rw [if_pos h]⟩
    · exact ⟨_, by rw [if_neg h]⟩

/-- The rewriting pass never creates a leading `]`. -/
theorem GoodB_patchScan {T : List Char} {b : List Char} (hb : GoodB b) :
    GoodB (patchScan T b) := by
  cases b with
  | nil =>
    intro d b' h
    rw [patchScan_nil] at h
    exact absurd h (by simp)
  | cons c cs =>
    have hc : c ≠ ']' := hb c cs rfl
    intro d b' h
    cases hm : tryMatchPatch (c :: cs) with
    | none =>
      rw [patchScan_cons_none hm] at h
      injection h with h1 _
      exact h1 ▸ hc
    | some v =>
      obtain ⟨t, al, r⟩ := v
      rw [patchScan_cons_some hm] at h
      obtain ⟨rr, hrr⟩ := patchRepl_shape T t al
      rw [hrr] at h
      simp only [List.cons_append] at h
      injection h with h1 _
      exact h1 ▸ (by decide : ('[' : Char) ≠ ']')

theorem patchScan_idem_aux (T : List Char) : ∀ (n : Nat) (cs : List Char), cs.length ≤ n →
    patchScan T (patchScan T cs) = patchScan T cs := by
  intro n
  induction n with
  | zero =>
    intro cs h
    have hnil : cs = [] := by
      cases cs with
      | nil => rfl
      | cons c cs' => simp at h
    subst hnil
    rfl
  | succ n ih =>
    intro cs hlen
    rcases firstOcc ']' cs with hno | ⟨a, b, hab, ha⟩
    · rw [patchScan_id_norb hno, patchScan_id_norb hno]
    · subst hab
      have hlb : b.length ≤ n := by
        simp only [List.length_append, List.length_cons] at hlen
        omega
      by_cases hgb : GoodB b
      · rw [patchScan_single_rb a b ha hgb,
          patchScan_single_rb a (patchScan T b) ha (GoodB_patchScan hgb),
          ih b hlb]
      · obtain ⟨b₂, hb2⟩ : ∃ b₂, b = ']' :: b₂ := by
          unfold GoodB at hgb
          push_neg at hgb
          obtain ⟨d, b', hdb, hd⟩ := hgb
          exact ⟨b', by rw [hdb, hd]⟩
        subst hb2
        have hlb2 : b₂.length ≤ n := by
          simp only [List.length_cons] at hlb
          omega
        rcases firstPair a with hnpa | ⟨p, w, hpw, hnp⟩
        · rw [patchScan_double_rb a b₂ ha hnpa,
            patchScan_double_rb a (patchScan T b₂) ha hnpa,
            ih b₂ hlb2]
        · subst hpw
          have hw_rb : ∀ c ∈ w, c ≠ ']' := fun c hc => ha c (by simp [hc])
          have e1 : (p ++ '[' :: '[' :: w) ++ ']' :: ']' :: b₂ =
              p ++ '[' :: '[' :: (w ++ ']' :: ']' :: b₂) := by simp
          rw [e1]
          rcases firstOcc '|' w with hnop | ⟨u, v, huv, hu⟩
          · have hwall : ∀ c ∈ w, notStopB c = true := by
              intro c hc
              simp only [notStopB, Bool.and_eq_true, bne_iff_ne, ne_eq]
              exact ⟨hw_rb c hc, hnop c hc⟩
            have hm := tryMatchPatch_bare b₂ hwall
            rw [patchScan_through p hnp hm]
            by_cases htw : w.takeWhile (fun c => c != '#') = T
            · have hrepl : patchRepl T w none =
                  '[' :: '[' :: (w ++ '|' :: (T ++ [']', ']'])) := by
                unfold patchRepl
                rw [if_pos htw]
              rw [hrepl]
              have e2 : p ++ ('[' :: '[' :: (w ++ '|' :: (T ++ [']', ']'])) ++ patchScan T b₂)
                  = p ++ '[' :: '[' :: (w ++ '|' :: (T ++ ']' :: ']' :: patchScan T b₂)) := by
                simp [List.append_assoc]
              rw [e2]
              have hTall : ∀ c ∈ T, neRB c = true := by
                intro c hc
                rw [← htw] at hc
                have hcm := mem_of_mem_takeWhile hc
                simp only [neRB, bne_iff_ne, ne_eq]
                exact hw_rb c hcm
              have hm2 := @tryMatchPatch_pipe w T (patchScan T b₂) hwall hTall
              rw [patchScan_through p hnp hm2, ih b₂ hlb2,
                show patchRepl T w (some T) =
                  '[' :: '[' :: (w ++ '|' :: (T ++ [']', ']'])) from rfl]
              exact e2
            · have hrepl : patchRepl T w none = '[' :: '[' :: (w ++ [']', ']']) := by
                unfold patchRepl
                rw [if_neg htw]
              rw [hrepl]
              have e2 : p ++ ('[' :: '[' :: (w ++ [']', ']']) ++ patchScan T b₂)
                  = p ++ '[' :: '[' :: (w ++ ']' :: ']' :: patchScan T b₂) := by
                simp [List.append_assoc]
              rw [e2]
              have hm2 := tryMatchPatch_bare (patchScan T b₂) hwall
              rw [patchScan_through p hnp hm2, ih b₂ hlb2, hrepl]
              exact e2
          · subst huv
            have huall : ∀ c ∈ u, notStopB c = true := by
              intro c hc
              simp only [notStopB, Bool.and_eq_true, bne_iff_ne, ne_eq]
              exact ⟨hw_rb c (by simp [hc]), hu c hc⟩
            have hvall : ∀ c ∈ v, neRB c = true := by
              intro c hc
              simp only [neRB, bne_iff_ne, ne_eq]
              exact hw_rb c (by simp [hc])
            have e3 : '[' :: '[' :: ((u ++ '|' :: v) ++ ']' :: ']' :: b₂) =
                '[' :: '[' :: (u ++ '|' :: (v ++ ']' :: ']' :: b₂)) := by simp
            rw [e3]
            have hm := tryMatchPatch_pipe b₂ huall hvall
            rw [patchScan_through p hnp hm]
            have hrepl : patchRepl T u (some v) =
                '[' :: '[' :: (u ++ '|' :: (v ++ [']', ']'])) := rfl
            rw [hrepl]
            have e4 : p ++ ('[' :: '[' :: (u ++ '|' :: (v ++ [']', ']'])) ++ patchScan T b₂)
                = p ++ '[' :: '[' :: (u ++ '|' :: (v ++ ']' :: ']' :: patchScan T b₂)) := by
              simp [List.append_assoc]
            rw [e4]
            have hm2 := tryMatchPatch_pipe (patchScan T b₂) huall hvall
            rw [patchScan_through p hnp hm2, ih b₂ hlb2, hrepl]
            exact e4

/-- C2: the Link Rewriter's content transformation is idempotent — for
every document content and every target name, applying the
`patchBareLinks` replacement pass twice produces exactly the same content
as applying it once (rewritten references carry a pipe segment and are
excluded from the bare-reference rule on the second pass). -/
theorem c2_rewriter_idempotent (T cs : List Char) :
    patchScan T (patchScan T cs) = patchScan T cs :=
  patchScan_idem_aux T cs.length cs (Nat.le_refl _)

end Aoc
